import Mathlib

/-!
Verification of the Mini-Waterways simulation core: the route network
(tile graph with BFS pathfinding), transit lines (stop sequences with
bounded boat spawning) and boats (path-following kinematics and
passenger loading).  Definitions are shallow embeddings of the
TypeScript sources `RouteNetwork.ts`, `TransitLine.ts`, `Boat.ts` and
`Port.ts`.  JavaScript `Map` objects are modelled as insertion-ordered
association lists with unique keys, `Set` objects as insertion-ordered
duplicate-free lists, numeric grid coordinates as integers and the
boat's floating-point kinematics over the reals.
-/

/-- A tile key, modelling the string `"x,y"` produced by `getKey`. -/
abbrev Key := ℤ × ℤ

/-- The `Point` interface of `Boat.ts`: a 2-D integer grid point. -/
structure Point where
  x : ℤ
  y : ℤ
deriving DecidableEq, Repr

/-- Models `parseKey`: recover the coordinates stored in a tile key. -/
def parseKey (k : Key) : Point := ⟨k.1, k.2⟩

/-- Lookup in a JavaScript `Map` modelled as an association list
(`Map.get`): first entry with the given key, if any. -/
def mget {α : Type} : List (Key × α) → Key → Option α
  | [], _ => none
  | e :: rest, k => if e.1 = k then some e.2 else mget rest k

/-- Deletion from a JavaScript `Map` (`Map.delete`): drop the entry
with the given key. -/
def mdel {α : Type} (m : List (Key × α)) (k : Key) : List (Key × α) :=
  m.filter (fun e => e.1 ≠ k)

/-- In-place mutation of the value stored under a key, as done through
a live object reference obtained from `Map.get`. -/
def mupd {α : Type} (m : List (Key × α)) (k : Key) (f : α → α) : List (Key × α) :=
  m.map (fun e => if e.1 = k then (e.1, f e.2) else e)

/-- `Set.add`: append the element unless it is already present. -/
def setAdd (s : List Key) (k : Key) : List Key :=
  if k ∈ s then s else s ++ [k]

/-- `Set.delete`: remove the element. -/
def setDel (s : List Key) (k : Key) : List Key :=
  s.filter (fun c => c ≠ k)

/-- The `RouteTile` interface of `RouteNetwork.ts`. -/
structure RouteTile where
  x : ℤ
  y : ℤ
  color : String
  connections : List Key
  isPortTile : Bool
deriving DecidableEq

/-- The `RouteNetwork` class state: the tile map and the grid size. -/
structure RouteNetwork where
  tiles : List (Key × RouteTile)
  gridSize : ℤ
deriving DecidableEq

namespace RouteNetwork

/-- The `RouteNetwork` constructor: empty tile map, given grid size. -/
def create (gridSize : ℤ) : RouteNetwork := ⟨[], gridSize⟩

/-- Models `getKey(x, y)`, the `"x,y"` key of a coordinate pair. -/
def getKey (x y : ℤ) : Key := (x, y)

/-- Models `hasTile`. -/
def hasTile (net : RouteNetwork) (x y : ℤ) : Bool :=
  (mget net.tiles (getKey x y)).isSome

/-- Models `getTile`. -/
def getTile (net : RouteNetwork) (x y : ℤ) : Option RouteTile :=
  mget net.tiles (getKey x y)

/-- One direction step of `updateConnections`: if a neighbor tile
exists at the offset, connect both ways. -/
def connectDir (g : ℤ) (x y : ℤ) (d : ℤ × ℤ) (ts : List (Key × RouteTile)) :
    List (Key × RouteTile) :=
  match mget ts (x + d.1 * g, y + d.2 * g) with
  | none => ts
  | some _ =>
      mupd
        (mupd ts (getKey x y)
          (fun t => { t with connections := setAdd t.connections (x + d.1 * g, y + d.2 * g) }))
        (x + d.1 * g, y + d.2 * g)
        (fun t => { t with connections := setAdd t.connections (getKey x y) })

/-- The four cardinal directions scanned by `updateConnections`, in
source order: right, left, down, up. -/
def directions : List (ℤ × ℤ) := [(1, 0), (-1, 0), (0, 1), (0, -1)]

/-- Models `updateConnections(x, y)`. -/
def updateConnections (net : RouteNetwork) (x y : ℤ) : RouteNetwork :=
  match mget net.tiles (getKey x y) with
  | none => net
  | some _ =>
      { net with tiles := directions.foldl (fun ts d => connectDir net.gridSize x y d ts) net.tiles }

/-- Models `addTile(x, y, color, isPortTile)`. -/
def addTile (net : RouteNetwork) (x y : ℤ) (color : String) (isPortTile : Bool) :
    RouteNetwork :=
  let key := getKey x y
  if (mget net.tiles key).isSome then net
  else
    let net1 : RouteNetwork :=
      { net with tiles := net.tiles ++ [(key, ⟨x, y, color, [], isPortTile⟩)] }
    updateConnections net1 x y

/-- Models `removeTile(x, y)`: the returned boolean paired with the
resulting network state. -/
def removeTile (net : RouteNetwork) (x y : ℤ) : Bool × RouteNetwork :=
  let key := getKey x y
  match mget net.tiles key with
  | none => (false, net)
  | some tile =>
    if tile.isPortTile then (false, net)
    else
      let ts1 := tile.connections.foldl
        (fun ts ck =>
          match mget ts ck with
          | none => ts
          | some _ => mupd ts ck (fun t => { t with connections := setDel t.connections key }))
        net.tiles
      (true, { net with tiles := mdel ts1 key })

/-- Every key that can ever enter the BFS queue: the start key and
every key mentioned in some connection set. -/
def allowedKeys (net : RouteNetwork) (startKey : Key) : List Key :=
  (startKey :: (net.tiles.map (fun e => e.2.connections)).flatten).dedup

/-- One neighbor step of the BFS inner loop over `tile.connections`:
state is (visited, parent, queue). -/
def expandStep (cur : Key) (st : List Key × List (Key × Key) × List Key) (c : Key) :
    List Key × List (Key × Key) × List Key :=
  if c ∈ st.1 then st else (st.1 ++ [c], st.2.1 ++ [(c, cur)], st.2.2 ++ [c])

/-- The BFS inner loop: visit, record parent of and enqueue every not
yet visited connection of the current tile, in connection-set order. -/
def expand (cur : Key) (conns : List Key) (vis : List Key) (par : List (Key × Key))
    (q : List Key) : List Key × List (Key × Key) × List Key :=
  conns.foldl (expandStep cur) (vis, par, q)

/-- The path-reconstruction loop of `findPath`: follow parent pointers
from `node` back to `startKey`, prepending each point.  The fuel bound
is an artifact of totality; `findPath` supplies enough fuel for the
chain (whose length is bounded by the parent map) to be fully walked. -/
def rebuild (par : List (Key × Key)) (startKey : Key) :
    ℕ → Key → List Point → Option (List Point)
  | 0, _, _ => none
  | fuel + 1, node, acc =>
    if node = startKey then some (parseKey startKey :: acc)
    else
      match mget par node with
      | none => none
      | some p => rebuild par startKey fuel p (parseKey node :: acc)

/-- The BFS `while (queue.length > 0)` loop of `findPath`.  The fuel
argument is an artifact of totality; `findPath` supplies fuel
exceeding the loop's iteration count, which is bounded because every
iteration either shortens the queue or grows the duplicate-free
visited set inside `allowedKeys`. -/
def bfsLoop (net : RouteNetwork) (startKey endKey : Key) :
    ℕ → List Key → List Key → List (Key × Key) → Option (List Point)
  | _, [], _, _ => none
  | 0, _ :: _, _, _ => none
  | fuel + 1, cur :: rest, vis, par =>
    if cur = endKey then rebuild par startKey (par.length + 1) endKey []
    else
      match mget net.tiles cur with
      | none => bfsLoop net startKey endKey fuel rest vis par
      | some tile =>
        match expand cur tile.connections vis par rest with
        | (vis', par', q') => bfsLoop net startKey endKey fuel q' vis' par'

/-- Models `findPath(startX, startY, endX, endY)`. -/
def findPath (net : RouteNetwork) (startX startY endX endY : ℤ) : Option (List Point) :=
  let startKey := getKey startX startY
  let endKey := getKey endX endY
  if !(net.hasTile startX startY) || !(net.hasTile endX endY) then none
  else
    let a := (allowedKeys net startKey).length
    bfsLoop net startKey endKey ((a + 1) * (a + 1)) [startKey] [startKey] []

/-- Models `areConnected`. -/
def areConnected (net : RouteNetwork) (startX startY endX endY : ℤ) : Bool :=
  (findPath net startX startY endX endY).isSome

/-- Models `getTileCount`. -/
def getTileCount (net : RouteNetwork) : ℕ := net.tiles.length

/-- Models `getPlayerTileCount`. -/
def getPlayerTileCount (net : RouteNetwork) : ℕ :=
  (net.tiles.filter (fun e => !e.2.isPortTile)).length

end RouteNetwork

/-- The `PortType` enum of `Port.ts`. -/
inductive PortType where
  | residential
  | industrial
  | commercial
deriving DecidableEq

/-- The `Passenger` interface of `Port.ts`. -/
structure Passenger where
  destinationType : PortType
  color : String
deriving DecidableEq

/-- The `Port` class of `Port.ts`, restricted to the state the
simulation core reads: position, name and type. -/
structure Port where
  x : ℤ
  y : ℤ
  name : String
  type : PortType
deriving DecidableEq

/-- Models `Port.getPosition`. -/
def Port.getPosition (p : Port) : Point := ⟨p.x, p.y⟩

/-- A 2-D position over the reals, modelling the floating-point
`position` of a boat. -/
structure Vec2 where
  x : ℝ
  y : ℝ

/-- JavaScript `Math.atan2(y, x)`, as the argument of the complex
number `x + y*i`. -/
noncomputable def atan2JS (y x : ℝ) : ℝ := Complex.arg ⟨x, y⟩

/-- The `Boat` class state.  The untyped `transitLine` back-reference
is modelled by the owning line's id. -/
structure Boat where
  position : Vec2
  speed : ℝ
  path : List Point
  pathIndex : ℕ
  angle : ℝ
  passengers : List Passenger
  maxCapacity : ℤ
  color : String
  startPort : Port
  endPort : Port
  needsNewPath : Bool
  transitLine : Option String

namespace Boat

/-- Models `Boat.updatePath`: query the network for a path between the
start and end ports; on success install it and clear the needs-path
flag, otherwise set the flag. -/
def updatePath (net : RouteNetwork) (b : Boat) : Boat :=
  let startPos := b.startPort.getPosition
  let endPos := b.endPort.getPosition
  match RouteNetwork.findPath net startPos.x startPos.y endPos.x endPos.y with
  | some p => { b with path := p, pathIndex := 0, needsNewPath := false }
  | none => { b with needsNewPath := true }

/-- The `Boat` constructor: start at the start port's position with
speed 3, capacity 10, no passengers, then find an initial path. -/
noncomputable def create (startPort endPort : Port) (net : RouteNetwork) (color : String) :
    Boat :=
  updatePath net
    { position := ⟨(startPort.x : ℝ), (startPort.y : ℝ)⟩
      speed := 3
      path := []
      pathIndex := 0
      angle := 0
      passengers := []
      maxCapacity := 10
      color := color
      startPort := startPort
      endPort := endPort
      needsNewPath := false
      transitLine := none }

/-- Models `Boat.loadPassengers`: the accepted count paired with the
updated boat. -/
def loadPassengers (b : Boat) (passengers : List Passenger) : ℤ × Boat :=
  let availableSpace : ℤ := b.maxCapacity - b.passengers.length
  let toLoad : ℤ := min (passengers.length : ℤ) availableSpace
  (toLoad, { b with passengers := b.passengers ++ passengers.take toLoad.toNat })

/-- Models `Boat.unloadPassengers`: the full manifest paired with the
emptied boat. -/
def unloadPassengers (b : Boat) : List Passenger × Boat :=
  (b.passengers, { b with passengers := [] })

/-- Models `Boat.getPassengers`. -/
def getPassengers (b : Boat) : ℕ := b.passengers.length

/-- Models `Boat.isAtDestination`: `pathIndex >= path.length`. -/
def isAtDestination (b : Boat) : Bool := b.path.length ≤ b.pathIndex

/-- Models `Boat.needsPathUpdate`. -/
def needsPathUpdate (b : Boat) : Bool := b.needsNewPath

/-- Models `Boat.update`: retry pathfinding while the needs-path flag
is set (staying idle if it fails again); otherwise move toward the
current waypoint, snapping onto it and advancing the index when the
remaining distance is below one tick's travel. -/
noncomputable def update (net : RouteNetwork) (b : Boat) : Boat :=
  let b1 := if b.needsNewPath then updatePath net b else b
  if b1.needsNewPath then b1
  else if h : b1.pathIndex < b1.path.length then
    let target := b1.path[b1.pathIndex]
    let dx := (target.x : ℝ) - b1.position.x
    let dy := (target.y : ℝ) - b1.position.y
    let dist := Real.sqrt (dx * dx + dy * dy)
    let b2 := { b1 with angle := atan2JS dy dx }
    if dist < b2.speed then
      { b2 with position := ⟨(target.x : ℝ), (target.y : ℝ)⟩, pathIndex := b2.pathIndex + 1 }
    else
      { b2 with position := ⟨b2.position.x + dx / dist * b2.speed,
                             b2.position.y + dy / dist * b2.speed⟩ }
  else b1

end Boat

/-- The `TransitLine` class state. -/
structure TransitLine where
  id : String
  name : String
  ports : List Port
  color : String
  boats : List Boat
  maxBoats : ℤ

namespace TransitLine

/-- The consecutive-pair connectivity loop of `TransitLine.isValid`. -/
def chainConnected (net : RouteNetwork) : List Port → Bool
  | a :: b :: rest =>
      (let p1 := a.getPosition
       let p2 := b.getPosition
       RouteNetwork.areConnected net p1.x p1.y p2.x p2.y) &&
        chainConnected net (b :: rest)
  | _ => true

/-- Models `TransitLine.isValid`: at least two stops, every
consecutive pair connected, and when more than two stops exist the
last stop connected back to the first. -/
def isValid (net : RouteNetwork) (l : TransitLine) : Bool :=
  match l.ports with
  | a :: b :: rest =>
      chainConnected net (a :: b :: rest) &&
        (if 2 < (a :: b :: rest).length then
          let firstPort := a.getPosition
          let lastPort := ((a :: b :: rest).getLast (List.cons_ne_nil _ _)).getPosition
          RouteNetwork.areConnected net lastPort.x lastPort.y firstPort.x firstPort.y
        else true)
  | _ => false

/-- Models `TransitLine.spawnBoat`: no-op at or above the `maxBoats`
bound or with fewer than two ports; otherwise append a new boat bound
for the first two ports and tagged with this line. -/
noncomputable def spawnBoat (net : RouteNetwork) (l : TransitLine) : TransitLine :=
  if l.maxBoats ≤ (l.boats.length : ℤ) then l
  else
    match l.ports with
    | p0 :: p1 :: _ =>
        { l with boats := l.boats ++ [{ Boat.create p0 p1 net l.color with transitLine := some l.id }] }
    | _ => l

/-- Models `TransitLine.setMaxBoats`. -/
def setMaxBoats (l : TransitLine) (mx : ℤ) : TransitLine := { l with maxBoats := mx }

/-- Models `TransitLine.getBoatCount`. -/
def getBoatCount (l : TransitLine) : ℕ := l.boats.length

/-- Models `TransitLine.addPort`: append unless equal to the last
stop. -/
def addPort (l : TransitLine) (p : Port) : TransitLine :=
  match l.ports.getLast? with
  | some lastPort => if lastPort = p then l else { l with ports := l.ports ++ [p] }
  | none => { l with ports := l.ports ++ [p] }

/-- Models `TransitLine.removeLastPort`: the popped port (if any)
paired with the updated line. -/
def removeLastPort (l : TransitLine) : Option Port × TransitLine :=
  match l.ports.getLast? with
  | some lastPort => (some lastPort, { l with ports := l.ports.dropLast })
  | none => (none, l)

end TransitLine

/-! ## Concrete fixtures used by witnesses and counterexamples -/

/-- A residential port at the origin. -/
def portA : Port := ⟨0, 0, "Port A", PortType.residential⟩

/-- An industrial port two grid cells to the right. -/
def portB : Port := ⟨100, 0, "Port B", PortType.industrial⟩

/-- A network with no tiles at all. -/
def emptyNet : RouteNetwork := RouteNetwork.create 50

/-- A fresh boat from `portA` to `portB` over the empty network, with
no path, used by witnesses. -/
noncomputable def witBoat : Boat :=
  { position := ⟨0, 0⟩
    speed := 3
    path := []
    pathIndex := 0
    angle := 0
    passengers := []
    maxCapacity := 10
    color := "#3498db"
    startPort := portA
    endPort := portB
    needsNewPath := false
    transitLine := none }

/-- Fifteen passengers, more than a boat's capacity. -/
def pass15 : List Passenger := List.replicate 15 ⟨PortType.commercial, "#f39c12"⟩

/-- C8: `loadPassengers` accepts exactly `min n (cap - c)` passengers,
taken as the initial segment of the input list, appends them to the
manifest and returns that count. -/
theorem Boat.loadPassengers_spec (b : Boat) (ps : List Passenger)
    (h : (b.passengers.length : ℤ) ≤ b.maxCapacity) :
    ∃ k : ℕ, (k : ℤ) = min (ps.length : ℤ) (b.maxCapacity - b.passengers.length) ∧
      b.loadPassengers ps = ((k : ℤ), { b with passengers := b.passengers ++ ps.take k }) := by
  have h0 : (0 : ℤ) ≤ min (ps.length : ℤ) (b.maxCapacity - b.passengers.length) :=
    le_min (Int.ofNat_nonneg _) (by omega)
  refine ⟨(min (ps.length : ℤ) (b.maxCapacity - b.passengers.length)).toNat,
    Int.toNat_of_nonneg h0, ?_⟩
  unfold Boat.loadPassengers
  rw [Int.toNat_of_nonneg h0]

/-- C8 witness: loading 15 passengers onto an empty boat of capacity
10 accepts exactly 10, all aboard afterwards. -/
theorem Boat.loadPassengers_spec_witness :
    ((witBoat.passengers.length : ℤ) ≤ witBoat.maxCapacity) ∧
    (∃ k : ℕ, (k : ℤ) = min (pass15.length : ℤ) (witBoat.maxCapacity - witBoat.passengers.length) ∧
      witBoat.loadPassengers pass15 = ((k : ℤ), { witBoat with passengers := witBoat.passengers ++ pass15.take k })) ∧
    (witBoat.loadPassengers pass15).1 = 10 ∧
    (witBoat.loadPassengers pass15).2.passengers.length = 10 := by
  refine ⟨by simp [witBoat], Boat.loadPassengers_spec witBoat pass15 (by simp [witBoat]), ?_, ?_⟩
  · simp [witBoat, Boat.loadPassengers, pass15]
  · simp [witBoat, Boat.loadPassengers, pass15]

/-- C9: while the needs-path flag is set, an `update` whose re-query
still finds no path changes nothing at all (position, path, waypoint
index and passengers included); the flag is cleared exactly by a call
in which `findPath` returns a path. -/
theorem Boat.update_awaitingPath_spec (net : RouteNetwork) (b : Boat)
    (hflag : b.needsNewPath = true) :
    (RouteNetwork.findPath net b.startPort.x b.startPort.y b.endPort.x b.endPort.y = none →
      Boat.update net b = b) ∧
    (∀ p, RouteNetwork.findPath net b.startPort.x b.startPort.y b.endPort.x b.endPort.y = some p →
      (Boat.update net b).needsNewPath = false) := by
  constructor
  · intro hnone
    have hup : Boat.updatePath net b = { b with needsNewPath := true } := by
      unfold Boat.updatePath
      simp only [Port.getPosition]
      rw [hnone]
    have hb : { b with needsNewPath := true } = b := by
      obtain ⟨pos, sp, pa, pi, an, ps, mc, co, sP, eP, nn, tl⟩ := b
      simp only at hflag
      rw [hflag]
    unfold Boat.update
    rw [hflag]
    simp only [if_true, hup, hb]
    rw [hflag]
    simp
  · intro p hp
    have hup : Boat.updatePath net b = { b with path := p, pathIndex := 0, needsNewPath := false } := by
      unfold Boat.updatePath
      simp only [Port.getPosition]
      rw [hp]
    unfold Boat.update
    rw [hflag]
    simp only [if_true, hup]
    split
    · simp_all
    · split
      · rw [apply_ite Boat.needsNewPath]
        simp
      · rfl

namespace TransitLine

/-- The consecutive-pair loop agrees with `List.Chain'` over the
connectivity relation. -/
theorem chainConnected_iff (net : RouteNetwork) (ps : List Port) :
    chainConnected net ps = true ↔
      List.Chain' (fun a b : Port => RouteNetwork.areConnected net a.x a.y b.x b.y = true) ps := by
  induction ps with
  | nil => simp [chainConnected]
  | cons a rest ih =>
    cases rest with
    | nil => simp [chainConnected]
    | cons b rest2 =>
      rw [List.chain'_cons, ← ih]
      simp [chainConnected, Port.getPosition, Bool.and_eq_true]

end TransitLine

/-- C5: line validity — false below 2 stops; for `[A, B]` exactly
connectivity of A to B; for `[A, B, C]` exactly the three pair
connections including the wrap-around; in general (≥ 2 stops) the
consecutive chain plus, above 2 stops, the wrap-around pair; and
`areConnected` holds exactly when `findPath` is non-null. -/
theorem TransitLine.isValid_spec (net : RouteNetwork) (l : TransitLine) :
    (l.ports.length < 2 → l.isValid net = false) ∧
    (∀ A B : Port, l.ports = [A, B] →
      (l.isValid net = true ↔ RouteNetwork.areConnected net A.x A.y B.x B.y = true)) ∧
    (∀ A B C : Port, l.ports = [A, B, C] →
      (l.isValid net = true ↔
        RouteNetwork.areConnected net A.x A.y B.x B.y = true ∧
        RouteNetwork.areConnected net B.x B.y C.x C.y = true ∧
        RouteNetwork.areConnected net C.x C.y A.x A.y = true)) ∧
    (2 ≤ l.ports.length →
      (l.isValid net = true ↔
        List.Chain' (fun a b : Port => RouteNetwork.areConnected net a.x a.y b.x b.y = true) l.ports ∧
        (2 < l.ports.length →
          ∀ A lastP : Port, l.ports.head? = some A → l.ports.getLast? = some lastP →
            RouteNetwork.areConnected net lastP.x lastP.y A.x A.y = true))) ∧
    (∀ sx sy ex ey : ℤ, RouteNetwork.areConnected net sx sy ex ey = true ↔
      RouteNetwork.findPath net sx sy ex ey ≠ none) := by
  refine ⟨?_, ?_, ?_, ?_, ?_⟩
  · intro hlen
    unfold TransitLine.isValid
    match hps : l.ports with
    | [] => rfl
    | [_] => rfl
    | a :: b :: rest =>
      rw [hps] at hlen
      simp only [List.length_cons] at hlen
      omega
  · intro A B hps
    unfold TransitLine.isValid
    rw [hps]
    simp [TransitLine.chainConnected, Port.getPosition]
  · intro A B C hps
    unfold TransitLine.isValid
    rw [hps]
    simp only [List.length_cons, List.length_nil]
    rw [if_pos (by omega)]
    simp [TransitLine.chainConnected, Port.getPosition, List.getLast, Bool.and_eq_true, and_assoc]
  · intro hlen
    unfold TransitLine.isValid
    match hps : l.ports with
    | [] => rw [hps] at hlen; simp at hlen
    | [_] => rw [hps] at hlen; simp at hlen
    | a :: b :: rest =>
      rw [Bool.and_eq_true, TransitLine.chainConnected_iff]
      constructor
      · rintro ⟨hchain, hwrap⟩
        refine ⟨hchain, ?_⟩
        intro hlong A lastP hA hlast
        rw [if_pos (by simpa using hlong)] at hwrap
        simp only [List.head?_cons, Option.some.injEq] at hA
        rw [List.getLast?_eq_getLast _ (List.cons_ne_nil _ _)] at hlast
        simp only [Option.some.injEq] at hlast
        subst hA
        subst hlast
        exact hwrap
      · rintro ⟨hchain, hwrap⟩
        refine ⟨hchain, ?_⟩
        by_cases hlong : 2 < (a :: b :: rest).length
        · rw [if_pos hlong]
          exact hwrap hlong a _ rfl (List.getLast?_eq_getLast _ (List.cons_ne_nil _ _))
        · rw [if_neg hlong]
  · intro sx sy ex ey
    unfold RouteNetwork.areConnected
    cases RouteNetwork.findPath net sx sy ex ey <;> simp

/-- A two-stop line over the empty network: invalid (its stops are not
connected) but with spare capacity. -/
def cexLine : TransitLine :=
  { id := "line-1"
    name := "Line 1"
    ports := [portA, portB]
    color := "#3498db"
    boats := []
    maxBoats := 2 }

/-- C5 witness: the concrete two-stop line over the empty network is
invalid exactly because its two stops are not connected. -/
theorem TransitLine.isValid_spec_witness :
    cexLine.ports = [portA, portB] ∧
    (cexLine.isValid emptyNet = true ↔
      RouteNetwork.areConnected emptyNet portA.x portA.y portB.x portB.y = true) ∧
    cexLine.isValid emptyNet = false :=
  ⟨rfl, ((TransitLine.isValid_spec emptyNet cexLine).2.1 portA portB rfl), by decide⟩

namespace TransitLine

/-- `spawnBoat` never changes the capacity bound. -/
theorem spawnBoat_maxBoats (net : RouteNetwork) (l : TransitLine) :
    (l.spawnBoat net).maxBoats = l.maxBoats := by
  unfold TransitLine.spawnBoat
  split
  · rfl
  · split <;> rfl

/-- `spawnBoat` keeps the boat count within the capacity bound. -/
theorem spawnBoat_count_le (net : RouteNetwork) (l : TransitLine)
    (h : (l.boats.length : ℤ) ≤ l.maxBoats) :
    ((l.spawnBoat net).boats.length : ℤ) ≤ l.maxBoats := by
  unfold TransitLine.spawnBoat
  split
  · exact h
  · rename_i hcap
    push_neg at hcap
    split
    · rename_i p0 p1 rest heq
      simp only [List.length_append, List.length_cons, List.length_nil]
      push_cast
      omega
    · exact h

/-- Iterated spawning keeps the boat count within the capacity bound. -/
theorem spawnBoat_iterate_le (net : RouteNetwork) :
    ∀ (k : ℕ) (l : TransitLine), (l.boats.length : ℤ) ≤ l.maxBoats →
      ((((TransitLine.spawnBoat net)^[k]) l).boats.length : ℤ) ≤ l.maxBoats := by
  intro k
  induction k with
  | zero => intro l h; simpa using h
  | succ k ih =>
    intro l h
    rw [Function.iterate_succ_apply]
    have h1 : ((l.spawnBoat net).boats.length : ℤ) ≤ (l.spawnBoat net).maxBoats := by
      rw [spawnBoat_maxBoats]
      exact spawnBoat_count_le net l h
    have := ih (l.spawnBoat net) h1
    rwa [spawnBoat_maxBoats] at this

end TransitLine

/-- C6: at or above capacity `spawnBoat` is a strict no-op; starting
at or below capacity, any number of spawns never pushes the active
boat count above the capacity bound; and lowering the bound removes no
boat from the active set. -/
theorem TransitLine.capacity_spec (net : RouteNetwork) (l : TransitLine) :
    (l.maxBoats ≤ (l.boats.length : ℤ) → l.spawnBoat net = l) ∧
    ((l.boats.length : ℤ) ≤ l.maxBoats → ∀ k : ℕ,
      ((((TransitLine.spawnBoat net)^[k]) l).boats.length : ℤ) ≤ l.maxBoats) ∧
    (∀ n : ℤ, (l.setMaxBoats n).boats = l.boats) := by
  refine ⟨?_, fun h k => TransitLine.spawnBoat_iterate_le net k l h, fun _ => rfl⟩
  intro h
  unfold TransitLine.spawnBoat
  rw [if_pos h]

/-- C6 witness: spawning capacity + 5 = 7 times on the two-stop line
with capacity 2 never exceeds 2 active boats, and a capacity cut keeps
the boat set. -/
theorem TransitLine.capacity_spec_witness :
    ((cexLine.boats.length : ℤ) ≤ cexLine.maxBoats) ∧
    ((((TransitLine.spawnBoat emptyNet)^[7]) cexLine).boats.length : ℤ) ≤ cexLine.maxBoats ∧
    (cexLine.setMaxBoats 0).boats = cexLine.boats :=
  ⟨by decide, (TransitLine.capacity_spec emptyNet cexLine).2.1 (by decide) 7,
    (TransitLine.capacity_spec emptyNet cexLine).2.2 0⟩

/-- C2 counterexample: the two-stop line over the empty network is
invalid (`isValid` is false), yet `spawnBoat` adds a boat — validity
is not consulted by the spawn operation. -/
theorem TransitLine.spawnBoat_invalid_cex :
    cexLine.isValid emptyNet = false ∧
    cexLine.boats.length = 0 ∧
    (cexLine.spawnBoat emptyNet).boats.length = 1 := by
  refine ⟨by decide, rfl, ?_⟩
  unfold TransitLine.spawnBoat
  norm_num [cexLine]

/-- C2 amended: a line with fewer than two stops is invalid and
`spawnBoat` on it adds no boat; (invalid lines with two or more stops
can still spawn, as the counterexample shows). -/
theorem TransitLine.spawnBoat_undersized_spec (net : RouteNetwork) (l : TransitLine)
    (h : l.ports.length < 2) :
    l.isValid net = false ∧ l.spawnBoat net = l := by
  constructor
  · unfold TransitLine.isValid
    match hps : l.ports with
    | [] => rfl
    | [_] => rfl
    | a :: b :: rest =>
      rw [hps] at h
      simp only [List.length_cons] at h
      omega
  · unfold TransitLine.spawnBoat
    split
    · rfl
    · match hps : l.ports with
      | [] => rfl
      | [_] => rfl
      | a :: b :: rest =>
        rw [hps] at h
        simp only [List.length_cons] at h
        omega

/-- A one-stop line, used as the undersized witness. -/
def shortLine : TransitLine :=
  { id := "line-2"
    name := "Line 2"
    ports := [portA]
    color := "#e74c3c"
    boats := []
    maxBoats := 2 }

/-- C2 witness for the amended statement: the one-stop line is invalid
and spawning on it is a no-op. -/
theorem TransitLine.spawnBoat_undersized_spec_witness :
    shortLine.ports.length < 2 ∧ shortLine.isValid emptyNet = false ∧
    shortLine.spawnBoat emptyNet = shortLine :=
  ⟨by decide, (TransitLine.spawnBoat_undersized_spec emptyNet shortLine (by decide)).1,
    (TransitLine.spawnBoat_undersized_spec emptyNet shortLine (by decide)).2⟩

namespace Boat

/-- Branch lemma for `update`: when the remaining distance is below
one tick's travel, the boat snaps onto the waypoint and the index
advances. -/
theorem update_branch_snap (net : RouteNetwork) (b : Boat)
    (hflag : b.needsNewPath = false) (h : b.pathIndex < b.path.length) :
    ∀ dx dy dist : ℝ,
      dx = (b.path[b.pathIndex].x : ℝ) - b.position.x →
      dy = (b.path[b.pathIndex].y : ℝ) - b.position.y →
      dist = Real.sqrt (dx * dx + dy * dy) →
      dist < b.speed →
      Boat.update net b =
        { b with angle := atan2JS dy dx,
                 position := ⟨(b.path[b.pathIndex].x : ℝ), (b.path[b.pathIndex].y : ℝ)⟩,
                 pathIndex := b.pathIndex + 1 } := by
  intro dx dy dist hdx hdy hdist hlt
  subst hdx hdy hdist
  unfold Boat.update
  rw [hflag]
  simp only [Bool.false_eq_true, if_false, dif_pos h]
  rw [if_pos hlt, hflag]
  simp

/-- Branch lemma for `update`: at or above one tick's travel distance,
the boat moves by `speed` along the unit vector toward the waypoint
and the index does not advance. -/
theorem update_branch_move (net : RouteNetwork) (b : Boat)
    (hflag : b.needsNewPath = false) (h : b.pathIndex < b.path.length) :
    ∀ dx dy dist : ℝ,
      dx = (b.path[b.pathIndex].x : ℝ) - b.position.x →
      dy = (b.path[b.pathIndex].y : ℝ) - b.position.y →
      dist = Real.sqrt (dx * dx + dy * dy) →
      b.speed ≤ dist →
      Boat.update net b =
        { b with angle := atan2JS dy dx,
                 position := ⟨b.position.x + dx / dist * b.speed,
                              b.position.y + dy / dist * b.speed⟩ } := by
  intro dx dy dist hdx hdy hdist hge
  subst hdx hdy hdist
  unfold Boat.update
  rw [hflag]
  simp only [Bool.false_eq_true, if_false, dif_pos h]
  rw [if_neg (not_lt.mpr hge), hflag]
  simp

end Boat

/-- A boat exactly one speed unit (3) away from its single, final
waypoint. -/
noncomputable def tickBoat : Boat := { witBoat with path := [⟨3, 0⟩] }

/-- C7 counterexample: `tickBoat` is exactly one tick's travel
distance (its speed, 3) from its final waypoint; one `update` lands
its position exactly on the waypoint, yet the waypoint index does not
advance and `isAtDestination` is still false — the claimed snap
behaviour only fires when the distance is strictly below the speed. -/
theorem Boat.update_exactTick_cex :
    tickBoat.speed = 3 ∧ tickBoat.position.x = 0 ∧ tickBoat.position.y = 0 ∧
    Real.sqrt (((3 : ℝ) - 0) * ((3 : ℝ) - 0) + ((0 : ℝ) - 0) * ((0 : ℝ) - 0)) = 3 ∧
    (Boat.update emptyNet tickBoat).position.x = 3 ∧
    (Boat.update emptyNet tickBoat).position.y = 0 ∧
    (Boat.update emptyNet tickBoat).pathIndex = 0 ∧
    (Boat.update emptyNet tickBoat).isAtDestination = false := by
  have hsq2 : Real.sqrt ((3 : ℝ) * 3 + 0 * 0) = 3 := by
    rw [show ((3 : ℝ) * 3 + 0 * 0) = 3 ^ 2 by norm_num]
    exact Real.sqrt_sq (by norm_num)
  have hsq : Real.sqrt (((3 : ℝ) - 0) * ((3 : ℝ) - 0) + ((0 : ℝ) - 0) * ((0 : ℝ) - 0)) = 3 := by
    rw [show (((3 : ℝ) - 0) * ((3 : ℝ) - 0) + ((0 : ℝ) - 0) * ((0 : ℝ) - 0)) = 3 ^ 2 by norm_num]
    exact Real.sqrt_sq (by norm_num)
  have hidx : tickBoat.pathIndex < tickBoat.path.length := by simp [tickBoat, witBoat]
  have hupd := Boat.update_branch_move emptyNet tickBoat (by simp [tickBoat, witBoat]) hidx
    3 0 3 (by norm_num [tickBoat, witBoat]) (by norm_num [tickBoat, witBoat]) (by rw [hsq2])
    (by norm_num [tickBoat, witBoat])
  refine ⟨by norm_num [tickBoat, witBoat], by norm_num [tickBoat, witBoat],
    by norm_num [tickBoat, witBoat], hsq, ?_, ?_, ?_, ?_⟩
  · rw [hupd]
    norm_num [tickBoat, witBoat]
  · rw [hupd]
    norm_num [tickBoat, witBoat]
  · rw [hupd]
    norm_num [tickBoat, witBoat]
  · rw [hupd]
    simp [Boat.isAtDestination, tickBoat, witBoat]

/-- C7 amended: when the remaining distance to the current waypoint is
strictly below one tick's travel, `update` snaps the position exactly
onto the waypoint and advances the index (yielding `isAtDestination`
when it was the final waypoint); at or above that distance it moves by
`speed` along the unit vector without advancing the index, so a boat
exactly one speed unit from its final waypoint lands on it but only
becomes at-destination on the following call. -/
theorem Boat.update_arrival_spec (net : RouteNetwork) (b : Boat)
    (hflag : b.needsNewPath = false) (h : b.pathIndex < b.path.length) :
    ∀ dx dy dist : ℝ,
      dx = (b.path[b.pathIndex].x : ℝ) - b.position.x →
      dy = (b.path[b.pathIndex].y : ℝ) - b.position.y →
      dist = Real.sqrt (dx * dx + dy * dy) →
      ((dist < b.speed →
        Boat.update net b =
          { b with angle := atan2JS dy dx,
                   position := ⟨(b.path[b.pathIndex].x : ℝ), (b.path[b.pathIndex].y : ℝ)⟩,
                   pathIndex := b.pathIndex + 1 } ∧
        (b.pathIndex + 1 = b.path.length → (Boat.update net b).isAtDestination = true)) ∧
      (b.speed ≤ dist →
        Boat.update net b =
          { b with angle := atan2JS dy dx,
                   position := ⟨b.position.x + dx / dist * b.speed,
                                b.position.y + dy / dist * b.speed⟩ } ∧
        (Boat.update net b).pathIndex = b.pathIndex ∧
        (dist = b.speed → 0 < dist →
          (Boat.update net b).position.x = (b.path[b.pathIndex].x : ℝ) ∧
          (Boat.update net b).position.y = (b.path[b.pathIndex].y : ℝ) ∧
          (Boat.update net b).isAtDestination = false))) := by
  intro dx dy dist hdx hdy hdist
  constructor
  · intro hlt
    have hupd := Boat.update_branch_snap net b hflag h dx dy dist hdx hdy hdist hlt
    refine ⟨hupd, fun hfin => ?_⟩
    rw [hupd]
    simp [Boat.isAtDestination, hfin]
  · intro hge
    have hupd := Boat.update_branch_move net b hflag h dx dy dist hdx hdy hdist hge
    refine ⟨hupd, by rw [hupd], fun heq hpos => ?_⟩
    have hne : dist ≠ 0 := ne_of_gt hpos
    refine ⟨?_, ?_, ?_⟩
    · rw [hupd]
      show b.position.x + dx / dist * b.speed = _
      rw [← heq, div_mul_cancel₀ dx hne, hdx]
      ring
    · rw [hupd]
      show b.position.y + dy / dist * b.speed = _
      rw [← heq, div_mul_cancel₀ dy hne, hdy]
      ring
    · rw [hupd]
      simp [Boat.isAtDestination]
      omega

/-- A boat strictly within one tick's travel (distance 1, speed 3) of
its single, final waypoint. -/
noncomputable def snapBoat : Boat := { witBoat with path := [⟨1, 0⟩] }

/-- C7 witness for the amended statement: a boat strictly within one
tick of its final waypoint snaps onto it and reports at-destination
after a single update. -/
theorem Boat.update_arrival_spec_witness :
    (Boat.update emptyNet snapBoat).isAtDestination = true := by
  have hflag : snapBoat.needsNewPath = false := by simp [snapBoat, witBoat]
  have hidx : snapBoat.pathIndex < snapBoat.path.length := by simp [snapBoat, witBoat]
  have hs : Real.sqrt ((1 : ℝ) * 1 + 0 * 0) = 1 := by
    rw [show ((1 : ℝ) * 1 + 0 * 0) = 1 ^ 2 by norm_num]
    exact Real.sqrt_sq (by norm_num)
  have h := (Boat.update_arrival_spec emptyNet snapBoat hflag hidx 1 0 1
      (by norm_num [snapBoat, witBoat]) (by norm_num [snapBoat, witBoat]) (by rw [hs])).1
      (by norm_num [snapBoat, witBoat])
  exact h.2 (by simp [snapBoat, witBoat])

/-- A boat whose needs-path flag is set, over the empty network. -/
noncomputable def awaitBoat : Boat := { witBoat with needsNewPath := true }

/-- C9 witness: a needs-path boat over the empty network (where the
re-query finds no path) is left completely unchanged by `update`. -/
theorem Boat.update_awaitingPath_spec_witness :
    awaitBoat.needsNewPath = true ∧
    RouteNetwork.findPath emptyNet awaitBoat.startPort.x awaitBoat.startPort.y
      awaitBoat.endPort.x awaitBoat.endPort.y = none ∧
    Boat.update emptyNet awaitBoat = awaitBoat := by
  have h1 : awaitBoat.needsNewPath = true := rfl
  have h2 : RouteNetwork.findPath emptyNet awaitBoat.startPort.x awaitBoat.startPort.y
      awaitBoat.endPort.x awaitBoat.endPort.y = none := by
    show RouteNetwork.findPath emptyNet portA.x portA.y portB.x portB.y = none
    decide
  exact ⟨h1, h2, (Boat.update_awaitingPath_spec emptyNet awaitBoat h1).1 h2⟩

/-- Membership of an entry forces a successful map lookup of its key. -/
theorem mget_isSome_of_mem {α : Type} {m : List (Key × α)} {e : Key × α}
    (h : e ∈ m) : (mget m e.1).isSome := by
  induction m with
  | nil => cases h
  | cons a rest ih =>
    rcases List.mem_cons.mp h with h | h
    · subst h
      simp [mget]
    · by_cases ha : a.1 = e.1
      · simp [mget, ha]
      · simpa [mget, ha] using ih h

/-- Deleting the same element twice from a set is the same as once. -/
theorem setDel_idem (s : List Key) (k : Key) : setDel (setDel s k) k = setDel s k := by
  unfold setDel
  rw [List.filter_filter]
  simp

/-- The neighbor-cleanup loop of `removeTile` equals a pointwise map:
every entry whose key is in the removed tile's connection set loses
its edge to the removed key. -/
theorem removeFold_eq_map (k : Key) :
    ∀ (cks : List Key) (ts : List (Key × RouteTile)),
      cks.foldl
        (fun ts ck =>
          match mget ts ck with
          | none => ts
          | some _ => mupd ts ck (fun t => { t with connections := setDel t.connections k }))
        ts
      = ts.map (fun e =>
          if e.1 ∈ cks then (e.1, { e.2 with connections := setDel e.2.connections k }) else e) := by
  intro cks
  induction cks with
  | nil =>
    intro ts
    simp
  | cons c cks ih =>
    intro ts
    rw [List.foldl_cons, ih]
    cases hc : mget ts c with
    | none =>
      apply List.map_congr_left
      intro e he
      have hne : e.1 ≠ c := by
        intro hec
        have := mget_isSome_of_mem he
        rw [hec, hc] at this
        simp at this
      simp [List.mem_cons, hne]
    | some t0 =>
      unfold mupd
      rw [List.map_map]
      apply List.map_congr_left
      intro e he
      by_cases hec : e.1 = c
      · simp [Function.comp, hec, setDel_idem, List.mem_cons]
      · simp [Function.comp, hec, List.mem_cons]

/-- C4: `removeTile` returns false and leaves the network untouched
when no tile or a port tile occupies the coordinate; otherwise it
deletes the edge to the removed key from every neighbor in its
connection set, deletes the tile entry, and returns true.  Being a
total function, it never throws. -/
theorem RouteNetwork.removeTile_spec (net : RouteNetwork) (x y : ℤ) :
    (net.getTile x y = none → net.removeTile x y = (false, net)) ∧
    (∀ t, net.getTile x y = some t → t.isPortTile = true →
      net.removeTile x y = (false, net)) ∧
    (∀ t, net.getTile x y = some t → t.isPortTile = false →
      net.removeTile x y =
        (true, { net with tiles :=
          (mdel (net.tiles.map (fun e =>
            if e.1 ∈ t.connections then
              (e.1, { e.2 with connections := setDel e.2.connections (getKey x y) })
            else e)) (getKey x y)) })) := by
  refine ⟨?_, ?_, ?_⟩
  · intro h
    rw [RouteNetwork.getTile] at h
    simp only [RouteNetwork.removeTile, h]
  · intro t ht hport
    rw [RouteNetwork.getTile] at ht
    simp only [RouteNetwork.removeTile, ht, hport, if_true]
  · intro t ht hport
    rw [RouteNetwork.getTile] at ht
    simp only [RouteNetwork.removeTile, ht, hport, Bool.false_eq_true, if_false]
    rw [removeFold_eq_map]

/-- A network holding one port tile at the origin. -/
def portNet : RouteNetwork := (RouteNetwork.create 50).addTile 0 0 "#3498db" true

/-- C4 witness: removing the port tile fails and leaves the network
unchanged; removing a missing tile fails likewise. -/
theorem RouteNetwork.removeTile_spec_witness :
    portNet.getTile 0 0 = some ⟨0, 0, "#3498db", [], true⟩ ∧
    portNet.removeTile 0 0 = (false, portNet) ∧
    portNet.getTile 50 0 = none ∧
    portNet.removeTile 50 0 = (false, portNet) :=
  ⟨by decide, (RouteNetwork.removeTile_spec portNet 0 0).2.1 ⟨0, 0, "#3498db", [], true⟩
      (by decide) (by decide),
    by decide, (RouteNetwork.removeTile_spec portNet 50 0).1 (by decide)⟩

/-- Unfolding equation for `mget` on a cons cell. -/
theorem mget_cons {α : Type} (e : Key × α) (rest : List (Key × α)) (k : Key) :
    mget (e :: rest) k = if e.1 = k then some e.2 else mget rest k := rfl

/-- Lookup after an in-place value update. -/
theorem mget_mupd {α : Type} (m : List (Key × α)) (k : Key) (f : α → α) (k' : Key) :
    mget (mupd m k f) k' = if k' = k then (mget m k').map f else mget m k' := by
  induction m with
  | nil => simp [mupd, mget]
  | cons e rest ih =>
    unfold mupd at ih ⊢
    rw [List.map_cons]
    by_cases he : e.1 = k
    · by_cases hk : k' = k
      · subst hk
        rw [if_pos he, mget_cons, mget_cons, if_pos he, if_pos rfl, if_pos he]
        rfl
      · have hne : ¬e.1 = k' := fun hh => hk ((hh.symm.trans he))
        rw [if_pos he, mget_cons, if_neg hne, ih, if_neg hk, if_neg hk, mget_cons, if_neg hne]
    · by_cases hk' : e.1 = k'
      · have hne2 : ¬k' = k := fun hh => he (hk'.trans hh)
        rw [if_neg he, mget_cons, if_pos hk', if_neg hne2, mget_cons, if_pos hk']
      · by_cases hk : k' = k
        · rw [if_neg he, mget_cons, if_neg hk', ih, if_pos hk, if_pos hk, mget_cons, if_neg hk']
        · rw [if_neg he, mget_cons, if_neg hk', ih, if_neg hk, if_neg hk, mget_cons, if_neg hk']

/-- Lookup in an appended map, found case. -/
theorem mget_append_of_some {α : Type} {m1 : List (Key × α)} (m2 : List (Key × α))
    {k : Key} {v : α} (h : mget m1 k = some v) : mget (m1 ++ m2) k = some v := by
  induction m1 with
  | nil => simp [mget] at h
  | cons e rest ih =>
    rw [List.cons_append, mget_cons]
    rw [mget_cons] at h
    by_cases he : e.1 = k
    · rwa [if_pos he] at h ⊢
    · rw [if_neg he] at h ⊢
      exact ih h

/-- Lookup in an appended map, not-found case. -/
theorem mget_append_of_none {α : Type} {m1 : List (Key × α)} (m2 : List (Key × α))
    {k : Key} (h : mget m1 k = none) : mget (m1 ++ m2) k = mget m2 k := by
  induction m1 with
  | nil => simp
  | cons e rest ih =>
    rw [List.cons_append, mget_cons]
    rw [mget_cons] at h
    by_cases he : e.1 = k
    · rw [if_pos he] at h
      cases h
    · rw [if_neg he] at h ⊢
      exact ih h

/-- Lookup after deleting a key. -/
theorem mget_mdel {α : Type} (m : List (Key × α)) (k k' : Key) :
    mget (mdel m k) k' = if k' = k then none else mget m k' := by
  induction m with
  | nil => simp [mdel, mget]
  | cons e rest ih =>
    unfold mdel at ih ⊢
    rw [List.filter_cons]
    by_cases he : e.1 = k
    · rw [show (decide (e.1 ≠ k)) = false by simp [he]]
      simp only [Bool.false_eq_true, if_false]
      by_cases hk : k' = k
      · rw [ih, if_pos hk, if_pos hk]
      · have hne : ¬e.1 = k' := fun hh => hk (hh.symm.trans he)
        rw [ih, if_neg hk, if_neg hk, mget_cons, if_neg hne]
    · rw [show (decide (e.1 ≠ k)) = true by simp [he]]
      simp only [if_true]
      rw [mget_cons, mget_cons]
      by_cases hk' : e.1 = k'
      · have hne2 : ¬k' = k := fun hh => he (hk'.trans hh)
        rw [if_pos hk', if_neg hne2, if_pos hk']
      · rw [if_neg hk', if_neg hk', ih]

/-- Membership in a set after `add`. -/
theorem mem_setAdd {s : List Key} {k c : Key} : c ∈ setAdd s k ↔ c ∈ s ∨ c = k := by
  unfold setAdd
  by_cases hk : k ∈ s
  · simp only [if_pos hk]
    constructor
    · exact Or.inl
    · rintro (h | h)
      · exact h
      · exact h ▸ hk
  · simp [if_neg hk]

/-- Membership in a set after `delete`. -/
theorem mem_setDel {s : List Key} {k c : Key} : c ∈ setDel s k ↔ c ∈ s ∧ c ≠ k := by
  simp [setDel]

/-- Two keys exactly one grid cell apart in one of the 4 cardinal
directions. -/
def cardinalStep (g : ℤ) (a b : Key) : Prop :=
  (b.1 - a.1 = g ∧ b.2 = a.2) ∨ (b.1 - a.1 = -g ∧ b.2 = a.2) ∨
  (b.2 - a.2 = g ∧ b.1 = a.1) ∨ (b.2 - a.2 = -g ∧ b.1 = a.1)

/-- The connection invariant over a tile map: every connection target
exists, is connected back (symmetry), and lies one grid cell away in a
cardinal direction. -/
def GoodT (g : ℤ) (ts : List (Key × RouteTile)) : Prop :=
  ∀ k t, mget ts k = some t → ∀ b ∈ t.connections,
    (∃ t2, mget ts b = some t2 ∧ k ∈ t2.connections) ∧ cardinalStep g k b

/-- Each scanned direction offsets by one grid cell cardinally, both
ways. -/
theorem cardinal_of_dir (g x y : ℤ) {d : ℤ × ℤ} (hd : d ∈ RouteNetwork.directions) :
    cardinalStep g (x, y) (x + d.1 * g, y + d.2 * g) ∧
    cardinalStep g (x + d.1 * g, y + d.2 * g) (x, y) := by
  simp only [RouteNetwork.directions, List.mem_cons, List.not_mem_nil, or_false] at hd
  rcases hd with h | h | h | h <;> subst h <;>
    constructor <;> simp [cardinalStep]

/-- `connectDir` does not change which keys have tiles. -/
theorem connectDir_isSome (g x y : ℤ) (d : ℤ × ℤ) (ts : List (Key × RouteTile)) (k : Key) :
    (mget (RouteNetwork.connectDir g x y d ts) k).isSome = (mget ts k).isSome := by
  unfold RouteNetwork.connectDir
  cases hnk : mget ts (x + d.1 * g, y + d.2 * g) with
  | none => rfl
  | some tnk =>
    simp only
    rw [mget_mupd, mget_mupd]
    by_cases h1 : k = (x + d.1 * g, y + d.2 * g)
    · rw [if_pos h1]
      by_cases h2 : k = RouteNetwork.getKey x y <;> simp [h2, Option.isSome_map]
    · rw [if_neg h1]
      by_cases h2 : k = RouteNetwork.getKey x y <;> simp [h2, Option.isSome_map]

/-- The tile found after `connectDir`: same tile, with the new edge
possibly added to the two endpoint tiles. -/
theorem connectDir_mget (g x y : ℤ) (d : ℤ × ℤ) (ts : List (Key × RouteTile)) (k : Key) :
    (mget ts (x + d.1 * g, y + d.2 * g) = none ∧
      mget (RouteNetwork.connectDir g x y d ts) k = mget ts k) ∨
    ((mget ts (x + d.1 * g, y + d.2 * g)).isSome ∧
      mget (RouteNetwork.connectDir g x y d ts) k =
        (mget ts k).map (fun t =>
          let t1 := if k = RouteNetwork.getKey x y then
            { t with connections := setAdd t.connections (x + d.1 * g, y + d.2 * g) } else t
          if k = (x + d.1 * g, y + d.2 * g) then
            { t1 with connections := setAdd t1.connections (RouteNetwork.getKey x y) } else t1)) := by
  unfold RouteNetwork.connectDir
  cases hnk : mget ts (x + d.1 * g, y + d.2 * g) with
  | none => exact Or.inl ⟨rfl, rfl⟩
  | some tnk =>
    refine Or.inr ⟨rfl, ?_⟩
    simp only
    rw [mget_mupd, mget_mupd]
    by_cases h1 : k = (x + d.1 * g, y + d.2 * g)
    · rw [if_pos h1]
      by_cases h2 : k = RouteNetwork.getKey x y
      · have h3 : (x + d.1 * g, y + d.2 * g) = RouteNetwork.getKey x y := h1.symm.trans h2
        cases mget ts k <;> simp [h1, h2, h3]
      · have h3 : ¬((x + d.1 * g, y + d.2 * g) = RouteNetwork.getKey x y) :=
          fun hh => h2 (h1.trans hh)
        cases mget ts k <;> simp [h1, h2, h3]
    · rw [if_neg h1]
      by_cases h2 : k = RouteNetwork.getKey x y
      · have h3 : ¬(RouteNetwork.getKey x y = (x + d.1 * g, y + d.2 * g)) :=
          fun hh => h1 (h2.trans hh)
        cases mget ts k <;> simp [h1, h2, h3]
      · cases mget ts k <;> simp [h1, h2]

/-- Lookup through a key-preserving entrywise map. -/
theorem mget_map_entry {α : Type} (f : Key → α → α) (m : List (Key × α)) (k : Key) :
    mget (m.map (fun e => (e.1, f e.1 e.2))) k = (mget m k).map (f k) := by
  induction m with
  | nil => simp [mget]
  | cons e rest ih =>
    rw [List.map_cons, mget_cons, mget_cons]
    by_cases he : e.1 = k
    · rw [if_pos he, if_pos he, he]
      rfl
    · rw [if_neg he, if_neg he, ih]

/-- `connectDir` preserves the connection invariant when the tile at
the scanned coordinate exists. -/
theorem connectDir_good (g x y : ℤ) {d : ℤ × ℤ} (hd : d ∈ RouteNetwork.directions)
    (ts : List (Key × RouteTile)) (hkey : (mget ts (RouteNetwork.getKey x y)).isSome)
    (hg : GoodT g ts) : GoodT g (RouteNetwork.connectDir g x y d ts) := by
  cases hnk : mget ts (x + d.1 * g, y + d.2 * g) with
  | none =>
    have heq : RouteNetwork.connectDir g x y d ts = ts := by
      unfold RouteNetwork.connectDir
      rw [hnk]
    rwa [heq]
  | some tnk =>
    have hchar : ∀ k, mget (RouteNetwork.connectDir g x y d ts) k =
        (mget ts k).map (fun t =>
          let t1 := if k = RouteNetwork.getKey x y then
            { t with connections := setAdd t.connections (x + d.1 * g, y + d.2 * g) } else t
          if k = (x + d.1 * g, y + d.2 * g) then
            { t1 with connections := setAdd t1.connections (RouteNetwork.getKey x y) } else t1) := by
      intro k
      rcases connectDir_mget g x y d ts k with ⟨hno, _⟩ | ⟨_, h⟩
      · rw [hnk] at hno
        cases hno
      · exact h
    have hmono : ∀ k0 b0, (∃ t2, mget ts b0 = some t2 ∧ k0 ∈ t2.connections) →
        ∃ t2, mget (RouteNetwork.connectDir g x y d ts) b0 = some t2 ∧ k0 ∈ t2.connections := by
      rintro k0 b0 ⟨t2, h2, hs⟩
      refine ⟨_, by rw [hchar b0, h2]; rfl, ?_⟩
      simp only
      split <;> split <;> simp [mem_setAdd, hs]
    intro k tk hk b hb
    rw [hchar k] at hk
    rcases Option.map_eq_some'.mp hk with ⟨t0, ht0, htk⟩
    subst htk
    simp only at hb
    have hold : b ∈ t0.connections →
        (∃ t2, mget (RouteNetwork.connectDir g x y d ts) b = some t2 ∧ k ∈ t2.connections) ∧
        cardinalStep g k b := by
      intro hbo
      obtain ⟨hex, hcard⟩ := hg k t0 ht0 b hbo
      exact ⟨hmono k b hex, hcard⟩
    have hnewKN : k = RouteNetwork.getKey x y → b = (x + d.1 * g, y + d.2 * g) →
        (∃ t2, mget (RouteNetwork.connectDir g x y d ts) b = some t2 ∧ k ∈ t2.connections) ∧
        cardinalStep g k b := by
      intro hk1 hb1
      subst hk1
      subst hb1
      refine ⟨⟨_, by rw [hchar, hnk]; rfl, ?_⟩, (cardinal_of_dir g x y hd).1⟩
      simp only [if_pos rfl]
      by_cases hq : (x + d.1 * g, y + d.2 * g) = RouteNetwork.getKey x y <;>
        simp [hq, mem_setAdd]
    have hnewNK : k = (x + d.1 * g, y + d.2 * g) → b = RouteNetwork.getKey x y →
        (∃ t2, mget (RouteNetwork.connectDir g x y d ts) b = some t2 ∧ k ∈ t2.connections) ∧
        cardinalStep g k b := by
      intro hk1 hb1
      subst hk1
      subst hb1
      obtain ⟨tk0, htk0⟩ := Option.isSome_iff_exists.mp hkey
      refine ⟨⟨_, by rw [hchar, htk0]; rfl, ?_⟩, (cardinal_of_dir g x y hd).2⟩
      simp only [if_pos rfl]
      by_cases hq : RouteNetwork.getKey x y = (x + d.1 * g, y + d.2 * g) <;>
        simp [hq, mem_setAdd]
    by_cases hk1 : k = RouteNetwork.getKey x y <;>
      by_cases hk2 : k = (x + d.1 * g, y + d.2 * g)
    · rw [if_pos hk1] at hb
      rw [if_pos hk2] at hb
      simp only [mem_setAdd] at hb
      rcases hb with (hb | hb) | hb
      · exact hold hb
      · exact hnewKN hk1 hb
      · exact hnewNK hk2 hb
    · rw [if_pos hk1] at hb
      rw [if_neg hk2] at hb
      simp only [mem_setAdd] at hb
      rcases hb with hb | hb
      · exact hold hb
      · exact hnewKN hk1 hb
    · rw [if_neg hk1] at hb
      rw [if_pos hk2] at hb
      simp only [mem_setAdd] at hb
      rcases hb with hb | hb
      · exact hold hb
      · exact hnewNK hk2 hb
    · rw [if_neg hk1] at hb
      rw [if_neg hk2] at hb
      exact hold hb

/-- The direction-scanning fold preserves the connection invariant. -/
theorem foldDirs_good (g x y : ℤ) :
    ∀ ds : List (ℤ × ℤ), (∀ d ∈ ds, d ∈ RouteNetwork.directions) →
      ∀ ts : List (Key × RouteTile), (mget ts (RouteNetwork.getKey x y)).isSome →
        GoodT g ts →
        GoodT g (ds.foldl (fun ts d => RouteNetwork.connectDir g x y d ts) ts) := by
  intro ds
  induction ds with
  | nil =>
    intro _ ts _ hg
    exact hg
  | cons d ds ih =>
    intro hds ts hkey hg
    rw [List.foldl_cons]
    exact ih (fun d' hd' => hds d' (List.mem_cons_of_mem _ hd'))
      _ (by rw [connectDir_isSome]; exact hkey)
      (connectDir_good g x y (hds d (List.mem_cons_self _ _)) ts hkey hg)

/-- `updateConnections` preserves the connection invariant and grid
size. -/
theorem updateConnections_good (net : RouteNetwork) (x y : ℤ)
    (hg : GoodT net.gridSize net.tiles) :
    GoodT net.gridSize (net.updateConnections x y).tiles ∧
    (net.updateConnections x y).gridSize = net.gridSize := by
  unfold RouteNetwork.updateConnections
  cases hk : mget net.tiles (RouteNetwork.getKey x y) with
  | none => exact ⟨hg, rfl⟩
  | some t =>
    exact ⟨foldDirs_good net.gridSize x y RouteNetwork.directions (fun d hd => hd)
      net.tiles (by rw [hk]; rfl) hg, rfl⟩

/-- Appending a fresh, connection-free tile preserves the invariant. -/
theorem append_new_good (g : ℤ) (ts : List (Key × RouteTile)) (key : Key) (t0 : RouteTile)
    (hconn : t0.connections = []) (hg : GoodT g ts) :
    GoodT g (ts ++ [(key, t0)]) := by
  intro k t hk b hb
  cases hts : mget ts k with
  | some v =>
    rw [mget_append_of_some _ hts] at hk
    injection hk with hvt
    subst hvt
    obtain ⟨⟨t2, hb2, hsym⟩, hcard⟩ := hg k v hts b hb
    exact ⟨⟨t2, mget_append_of_some _ hb2, hsym⟩, hcard⟩
  | none =>
    rw [mget_append_of_none _ hts, mget_cons] at hk
    by_cases he : key = k
    · rw [if_pos he] at hk
      cases hk
      rw [hconn] at hb
      cases hb
    · rw [if_neg he] at hk
      cases hk

/-- `addTile` preserves the connection invariant and grid size. -/
theorem addTile_good (net : RouteNetwork) (x y : ℤ) (c : String) (p : Bool)
    (hg : GoodT net.gridSize net.tiles) :
    GoodT net.gridSize (net.addTile x y c p).tiles ∧
    (net.addTile x y c p).gridSize = net.gridSize := by
  unfold RouteNetwork.addTile
  by_cases hk : (mget net.tiles (RouteNetwork.getKey x y)).isSome
  · simp only [hk, if_true]
    exact ⟨hg, trivial⟩
  · simp only [hk, Bool.false_eq_true, if_false]
    have hg1 : GoodT net.gridSize
        (net.tiles ++ [(RouteNetwork.getKey x y, ⟨x, y, c, [], p⟩)]) :=
      append_new_good net.gridSize net.tiles (RouteNetwork.getKey x y) ⟨x, y, c, [], p⟩ rfl hg
    exact updateConnections_good
      { net with tiles := net.tiles ++ [(RouteNetwork.getKey x y, ⟨x, y, c, [], p⟩)] } x y hg1

/-- Removing a tile via the neighbor-cleanup map preserves the
invariant. -/
theorem removal_good (g : ℤ) (ts : List (Key × RouteTile)) (key : Key) (t : RouteTile)
    (hkt : mget ts key = some t) (hg : GoodT g ts) :
    GoodT g (mdel (ts.map (fun e =>
      if e.1 ∈ t.connections then
        (e.1, { e.2 with connections := setDel e.2.connections key })
      else e)) key) := by
  have hfun : (fun e : Key × RouteTile =>
      if e.1 ∈ t.connections then
        (e.1, { e.2 with connections := setDel e.2.connections key })
      else e)
    = (fun e : Key × RouteTile =>
      (e.1, if e.1 ∈ t.connections then
        { e.2 with connections := setDel e.2.connections key } else e.2)) := by
    funext e
    by_cases he : e.1 ∈ t.connections <;> simp [he]
  have hchar : ∀ k, mget (mdel (ts.map (fun e =>
      if e.1 ∈ t.connections then
        (e.1, { e.2 with connections := setDel e.2.connections key })
      else e)) key) k =
      if k = key then none else (mget ts k).map (fun v =>
        if k ∈ t.connections then { v with connections := setDel v.connections key } else v) := by
    intro k
    rw [mget_mdel]
    by_cases hk : k = key
    · rw [if_pos hk, if_pos hk]
    · rw [if_neg hk, if_neg hk, hfun,
        mget_map_entry (fun k0 v => if k0 ∈ t.connections then
          { v with connections := setDel v.connections key } else v) ts k]
  intro k tk hk b hb
  rw [hchar k] at hk
  by_cases hkk : k = key
  · rw [if_pos hkk] at hk
    cases hk
  · rw [if_neg hkk] at hk
    rcases Option.map_eq_some'.mp hk with ⟨t0, ht0, htk⟩
    subst htk
    have hbt0 : b ∈ t0.connections := by
      by_cases hkc : k ∈ t.connections
      · rw [if_pos hkc] at hb
        exact (mem_setDel.mp hb).1
      · rw [if_neg hkc] at hb
        exact hb
    have hbk : b ≠ key := by
      by_cases hkc : k ∈ t.connections
      · rw [if_pos hkc] at hb
        exact (mem_setDel.mp hb).2
      · intro hbkey
        subst hbkey
        obtain ⟨⟨t2, hb2, hsym⟩, _⟩ := hg k t0 ht0 b hbt0
        rw [hkt] at hb2
        cases hb2
        exact hkc hsym
    obtain ⟨⟨t2, hb2, hsym⟩, hcard⟩ := hg k t0 ht0 b hbt0
    refine ⟨⟨_, by rw [hchar b, if_neg hbk, hb2]; rfl, ?_⟩, hcard⟩
    show k ∈ (if b ∈ t.connections then
        { t2 with connections := setDel t2.connections key } else t2).connections
    by_cases hbc : b ∈ t.connections
    · rw [if_pos hbc]
      exact mem_setDel.mpr ⟨hsym, hkk⟩
    · rw [if_neg hbc]
      exact hsym

/-- `removeTile` preserves the connection invariant and grid size. -/
theorem removeTile_good (net : RouteNetwork) (x y : ℤ)
    (hg : GoodT net.gridSize net.tiles) :
    GoodT net.gridSize (net.removeTile x y).2.tiles ∧
    (net.removeTile x y).2.gridSize = net.gridSize := by
  cases hk : mget net.tiles (RouteNetwork.getKey x y) with
  | none =>
    simp only [RouteNetwork.removeTile, hk]
    exact ⟨hg, trivial⟩
  | some t =>
    by_cases hp : t.isPortTile = true
    · simp only [RouteNetwork.removeTile, hk, hp, if_true]
      exact ⟨hg, trivial⟩
    · simp only [RouteNetwork.removeTile, hk, hp, Bool.false_eq_true, if_false]
      rw [removeFold_eq_map]
      exact ⟨removal_good net.gridSize net.tiles (RouteNetwork.getKey x y) t hk hg, trivial⟩

/-- A player-driven network edit: add a tile or remove one. -/
inductive NetOp where
  | add (x y : ℤ) (color : String) (isPortTile : Bool)
  | remove (x y : ℤ)

/-- Apply one edit to the network; a removal's boolean result is
discarded. -/
def applyOp (net : RouteNetwork) : NetOp → RouteNetwork
  | NetOp.add x y color isPortTile => net.addTile x y color isPortTile
  | NetOp.remove x y => (net.removeTile x y).2

/-- Run a sequence of edits from the empty network of the given grid
size. -/
def runOps (g : ℤ) (ops : List NetOp) : RouteNetwork :=
  ops.foldl applyOp (RouteNetwork.create g)

/-- One edit preserves the connection invariant and grid size. -/
theorem applyOp_good (net : RouteNetwork) (op : NetOp)
    (hg : GoodT net.gridSize net.tiles) :
    GoodT net.gridSize (applyOp net op).tiles ∧ (applyOp net op).gridSize = net.gridSize := by
  cases op with
  | add x y c p => exact addTile_good net x y c p hg
  | remove x y => exact removeTile_good net x y hg

/-- C3: after any sequence of `addTile`/`removeTile` edits from the
empty network, every connection target is an existing tile, every
connection is symmetric, and connected tiles are exactly one grid cell
apart in one of the 4 cardinal directions. -/
theorem RouteNetwork.runOps_connection_invariant (g : ℤ) (ops : List NetOp) :
    (runOps g ops).gridSize = g ∧
    ∀ k t, mget (runOps g ops).tiles k = some t → ∀ b ∈ t.connections,
      (∃ t2, mget (runOps g ops).tiles b = some t2 ∧ k ∈ t2.connections) ∧
      cardinalStep g k b := by
  have main : ∀ (ops0 : List NetOp) (net : RouteNetwork), GoodT net.gridSize net.tiles →
      GoodT net.gridSize (ops0.foldl applyOp net).tiles ∧
      (ops0.foldl applyOp net).gridSize = net.gridSize := by
    intro ops0
    induction ops0 with
    | nil =>
      intro net hg
      exact ⟨hg, rfl⟩
    | cons op rest ih =>
      intro net hg
      rw [List.foldl_cons]
      obtain ⟨hg1, he1⟩ := applyOp_good net op hg
      rw [← he1] at hg1
      obtain ⟨hg2, he2⟩ := ih (applyOp net op) hg1
      rw [he1] at hg2
      exact ⟨hg2, he2.trans he1⟩
  have hempty : GoodT (RouteNetwork.create g).gridSize (RouteNetwork.create g).tiles := by
    intro k t hk
    simp [RouteNetwork.create, mget] at hk
  obtain ⟨hg, he⟩ := main ops (RouteNetwork.create g) hempty
  exact ⟨he, hg⟩

/-- Two ordinary tiles placed side by side. -/
def demoOps : List NetOp :=
  [NetOp.add 0 0 "#3498db" false, NetOp.add 50 0 "#3498db" false]

/-- C3 witness: in the two-tile network, the origin tile's connection
to (50,0) is backed by an existing tile, is symmetric, and is one grid
cell to the right. -/
theorem RouteNetwork.runOps_connection_invariant_witness :
    mget (runOps 50 demoOps).tiles (0, 0) = some ⟨0, 0, "#3498db", [(50, 0)], false⟩ ∧
    (((50 : ℤ), (0 : ℤ)) ∈ (⟨0, 0, "#3498db", [(50, 0)], false⟩ : RouteTile).connections) ∧
    ((∃ t2, mget (runOps 50 demoOps).tiles ((50 : ℤ), (0 : ℤ)) = some t2 ∧
        ((0 : ℤ), (0 : ℤ)) ∈ t2.connections) ∧
      cardinalStep 50 (0, 0) (50, 0)) :=
  ⟨by decide, by decide,
    (RouteNetwork.runOps_connection_invariant 50 demoOps).2 (0, 0)
      ⟨0, 0, "#3498db", [(50, 0)], false⟩ (by decide) (50, 0) (by decide)⟩

/-- The directed adjacency of the connection graph as BFS walks it:
the source tile exists and lists the target in its connection set. -/
def adjKey (net : RouteNetwork) (a b : Key) : Prop :=
  ∃ t, mget net.tiles a = some t ∧ b ∈ t.connections

/-- An edge path of a given hop count through the connection graph. -/
inductive PathLen (net : RouteNetwork) : Key → Key → ℕ → Prop where
  | refl (a : Key) : PathLen net a a 0
  | step {a b c : Key} {n : ℕ} : adjKey net a b → PathLen net b c n → PathLen net a c (n + 1)

/-- Graph-theoretic reachability through the connection graph. -/
def ReachableKey (net : RouteNetwork) (a b : Key) : Prop := ∃ n, PathLen net a b n

/-- A zero-hop path joins a key to itself. -/
theorem PathLen.zero_eq {net : RouteNetwork} {a b : Key} (h : PathLen net a b 0) : a = b := by
  cases h
  rfl

/-- Extend a path by one edge at its end. -/
theorem PathLen.snoc {net : RouteNetwork} {a b c : Key} {n : ℕ}
    (h : PathLen net a b n) (hadj : adjKey net b c) : PathLen net a c (n + 1) := by
  induction h with
  | refl a => exact PathLen.step hadj (PathLen.refl c)
  | step ha hp ih => exact PathLen.step ha (ih hadj)

/-- Split the last edge off a nonempty path. -/
theorem PathLen.snoc_inv {net : RouteNetwork} {a c : Key} {n : ℕ}
    (h : PathLen net a c (n + 1)) : ∃ b, PathLen net a b n ∧ adjKey net b c := by
  induction n generalizing a with
  | zero =>
    cases h with
    | step hab hp =>
      cases PathLen.zero_eq hp
      exact ⟨a, PathLen.refl a, hab⟩
  | succ m ih =>
    cases h with
    | step hab hp =>
      obtain ⟨b2, hp2, hadj2⟩ := ih hp
      exact ⟨b2, PathLen.step hab hp2, hadj2⟩

/-- A successful lookup exposes a member entry. -/
theorem mget_mem {α : Type} {m : List (Key × α)} {k : Key} {v : α}
    (h : mget m k = some v) : (k, v) ∈ m := by
  induction m with
  | nil => cases h
  | cons e rest ih =>
    rw [mget_cons] at h
    by_cases he : e.1 = k
    · rw [if_pos he] at h
      cases h
      rw [← he]
      exact List.mem_cons_self _ _
    · rw [if_neg he] at h
      exact List.mem_cons_of_mem _ (ih h)

/-- Lookup in a constant-valued pair list built from a key list. -/
theorem mget_const_pairs (nw : List Key) (cur v : Key) :
    mget (nw.map (fun c => (c, cur))) v = if v ∈ nw then some cur else none := by
  induction nw with
  | nil => simp [mget]
  | cons c cs ih =>
    rw [List.map_cons, mget_cons]
    by_cases hc : c = v
    · subst hc
      simp
    · rw [if_neg hc, ih]
      by_cases hv : v ∈ cs
      · simp [hv, List.mem_cons, Ne.symm hc]
      · simp [hv, List.mem_cons, Ne.symm hc]

/-- A relation holding between all members holds pairwise. -/
theorem pairwise_of_all {α : Type} {l : List α} {R : α → α → Prop}
    (h : ∀ a ∈ l, ∀ b ∈ l, R a b) : l.Pairwise R := by
  induction l with
  | nil => exact List.Pairwise.nil
  | cons a t ih =>
    exact List.Pairwise.cons
      (fun b hb => h a (List.mem_cons_self _ _) b (List.mem_cons_of_mem _ hb))
      (ih fun a' ha' b hb => h a' (List.mem_cons_of_mem _ ha') b (List.mem_cons_of_mem _ hb))

/-- A duplicate-free list included in another is no longer than it. -/
theorem nodup_subset_length {α : Type} [DecidableEq α] {l l2 : List α}
    (hnd : l.Nodup) (hsub : ∀ x ∈ l, x ∈ l2) : l.length ≤ l2.length :=
  (List.subperm_of_subset hnd hsub).length_le

/-- Every key in a tile's connection set is an allowed BFS key. -/
theorem mem_allowed_of_conn (net : RouteNetwork) (s : Key) {cur v : Key} {tile : RouteTile}
    (hcur : mget net.tiles cur = some tile) (hv : v ∈ tile.connections) :
    v ∈ RouteNetwork.allowedKeys net s := by
  unfold RouteNetwork.allowedKeys
  rw [List.mem_dedup]
  refine List.mem_cons_of_mem _ ?_
  rw [List.mem_flatten]
  exact ⟨tile.connections, List.mem_map.mpr ⟨(cur, tile), mget_mem hcur, rfl⟩, hv⟩

/-- The start key is an allowed BFS key. -/
theorem start_mem_allowed (net : RouteNetwork) (s : Key) :
    s ∈ RouteNetwork.allowedKeys net s := by
  unfold RouteNetwork.allowedKeys
  rw [List.mem_dedup]
  exact List.mem_cons_self _ _

/-- The loop invariant of the BFS in `findPath`, over the queue,
visited set, parent map and a ghost depth assignment `d`. -/
structure BfsInv (net : RouteNetwork) (startKey endKey : Key) (q vis : List Key)
    (par : List (Key × Key)) (d : Key → ℕ) : Prop where
  qNodup : q.Nodup
  visNodup : vis.Nodup
  qSub : ∀ v ∈ q, v ∈ vis
  startMem : startKey ∈ vis
  visAllowed : ∀ v ∈ vis, v ∈ RouteNetwork.allowedKeys net startKey
  dStart : d startKey = 0
  parDom : ∀ v, (mget par v).isSome ↔ (v ∈ vis ∧ v ≠ startKey)
  parSpec : ∀ v u, mget par v = some u → u ∈ vis ∧ adjKey net u v ∧ d v = d u + 1
  distOk : ∀ v ∈ vis, PathLen net startKey v (d v)
  qSorted : List.Pairwise (fun a b => d a ≤ d b) q
  qBand : List.Pairwise (fun a b => d b ≤ d a + 1) q
  finClosed : ∀ u ∈ vis, u ∉ q → ∀ v, adjKey net u v → v ∈ vis ∧ d v ≤ d u + 1
  finMin : ∀ v ∈ vis, v ∉ q → ∀ a ∈ q, d v ≤ d a
  endInQ : endKey ∈ vis → endKey ∈ q
  dBound : ∀ v ∈ vis, d v < vis.length
  parLen : par.length + 1 = vis.length

/-- Characterization of the BFS inner loop: it appends a duplicate-free
block of previously unvisited connections to the visited set, parent
map and queue, covering every connection. -/
theorem expand_spec (cur : Key) (conns : List Key) :
    ∀ (vis : List Key) (par : List (Key × Key)) (q : List Key),
      ∃ nw : List Key,
        RouteNetwork.expand cur conns vis par q =
          (vis ++ nw, par ++ nw.map (fun c => (c, cur)), q ++ nw) ∧
        nw.Nodup ∧ (∀ c ∈ nw, c ∈ conns ∧ c ∉ vis) ∧ (∀ c ∈ conns, c ∈ vis ++ nw) := by
  induction conns with
  | nil =>
    intro vis par q
    exact ⟨[], by simp [RouteNetwork.expand], List.nodup_nil, by simp, by simp⟩
  | cons c cs ih =>
    intro vis par q
    by_cases hc : c ∈ vis
    · obtain ⟨nw, heq, hnd, hin, hcov⟩ := ih vis par q
      refine ⟨nw, ?_, hnd, fun c' hc' => ⟨List.mem_cons_of_mem _ (hin c' hc').1, (hin c' hc').2⟩, ?_⟩
      · unfold RouteNetwork.expand at heq ⊢
        rw [List.foldl_cons]
        have hstep : RouteNetwork.expandStep cur (vis, par, q) c = (vis, par, q) := by
          unfold RouteNetwork.expandStep
          rw [if_pos hc]
        rw [hstep]
        exact heq
      · intro c' hc'
        rcases List.mem_cons.mp hc' with h | h
        · subst h
          exact List.mem_append_left _ hc
        · exact hcov c' h
    · obtain ⟨nw, heq, hnd, hin, hcov⟩ := ih (vis ++ [c]) (par ++ [(c, cur)]) (q ++ [c])
      have hcnw : c ∉ nw := fun hcm =>
        (hin c hcm).2 (List.mem_append_right _ (List.mem_singleton.mpr rfl))
      refine ⟨c :: nw, ?_, List.nodup_cons.mpr ⟨hcnw, hnd⟩, ?_, ?_⟩
      · unfold RouteNetwork.expand at heq ⊢
        rw [List.foldl_cons]
        have hstep : RouteNetwork.expandStep cur (vis, par, q) c
            = (vis ++ [c], par ++ [(c, cur)], q ++ [c]) := by
          unfold RouteNetwork.expandStep
          rw [if_neg hc]
        rw [hstep, heq]
        simp [List.append_assoc]
      · intro c' hc'
        rcases List.mem_cons.mp hc' with h | h
        · subst h
          exact ⟨List.mem_cons_self _ _, hc⟩
        · obtain ⟨h1, h2⟩ := hin c' h
          exact ⟨List.mem_cons_of_mem _ h1, fun hv => h2 (List.mem_append_left _ hv)⟩
      · intro c' hc'
        rcases List.mem_cons.mp hc' with h | h
        · subst h
          simp
        · have := hcov c' h
          simp only [List.mem_append, List.mem_singleton, List.mem_cons] at this ⊢
          tauto

/-- The reconstruction loop walks the parent chain: with enough fuel
it returns the chain's points from the start key to the node, in
order, prepended to the accumulator. -/
theorem rebuild_spec (net : RouteNetwork) (startKey : Key) (vis : List Key)
    (par : List (Key × Key)) (d : Key → ℕ)
    (hdom : ∀ v, (mget par v).isSome ↔ (v ∈ vis ∧ v ≠ startKey))
    (hspec : ∀ v u, mget par v = some u → u ∈ vis ∧ adjKey net u v ∧ d v = d u + 1)
    (hds : d startKey = 0) :
    ∀ n node, node ∈ vis → d node = n →
      ∀ fuel acc, n + 1 ≤ fuel →
        ∃ L : List Point, RouteNetwork.rebuild par startKey fuel node acc = some (L ++ acc) ∧
          L.length = n + 1 ∧ L.head? = some (parseKey startKey) ∧
          L.getLast? = some (parseKey node) := by
  intro n
  induction n using Nat.strong_induction_on with
  | _ n ih =>
    intro node hmem hd fuel acc hfuel
    obtain ⟨f, rfl⟩ : ∃ f, fuel = f + 1 := ⟨fuel - 1, by omega⟩
    by_cases hns : node = startKey
    · have hn0 : n = 0 := by rw [← hd, hns, hds]
      subst hn0
      refine ⟨[parseKey startKey], ?_, rfl, rfl, ?_⟩
      · unfold RouteNetwork.rebuild
        rw [if_pos hns]
        rfl
      · simp [hns]
    · have hsome : (mget par node).isSome := (hdom node).mpr ⟨hmem, hns⟩
      obtain ⟨u, hu⟩ := Option.isSome_iff_exists.mp hsome
      obtain ⟨humem, huadj, hdnode⟩ := hspec node u hu
      have hdu : d u + 1 = n := by rw [← hd, hdnode]
      obtain ⟨L, hL, hlen, hhead, hlast⟩ :=
        ih (d u) (by omega) u humem rfl f (parseKey node :: acc) (by omega)
      refine ⟨L ++ [parseKey node], ?_, ?_, ?_, ?_⟩
      · unfold RouteNetwork.rebuild
        rw [if_neg hns, hu]
        show RouteNetwork.rebuild par startKey f u (parseKey node :: acc) = _
        rw [hL]
        simp
      · simp only [List.length_append, List.length_singleton, hlen]
        omega
      · cases L with
        | nil => cases hlen
        | cons p ps =>
          simp only [List.head?_cons, Option.some.injEq] at hhead
          simp [hhead]
      · exact List.getLast?_concat _

/-- At the moment the end key reaches the queue front, its recorded
depth is minimal: any path to any node bounds depths from below. -/
theorem pop_min (net : RouteNetwork) (startKey endKey : Key) (rest vis : List Key)
    (par : List (Key × Key)) (d : Key → ℕ)
    (inv : BfsInv net startKey endKey (endKey :: rest) vis par d) :
    ∀ m v, PathLen net startKey v m → (v ∈ vis ∧ d v ≤ m) ∨ d endKey ≤ m := by
  intro m
  induction m with
  | zero =>
    intro v h
    cases PathLen.zero_eq h
    exact Or.inl ⟨inv.startMem, by rw [inv.dStart]⟩
  | succ m ih =>
    intro v h
    obtain ⟨u, hu, huv⟩ := PathLen.snoc_inv h
    rcases ih u hu with ⟨humem, hdu⟩ | hend
    · by_cases huq : u ∈ endKey :: rest
      · rcases List.mem_cons.mp huq with he | hr
        · subst he
          exact Or.inr (by omega)
        · have hle : d endKey ≤ d u := (List.pairwise_cons.mp inv.qSorted).1 u hr
          exact Or.inr (by omega)
      · obtain ⟨hvmem, hdv⟩ := inv.finClosed u humem huq v huv
        exact Or.inl ⟨hvmem, by omega⟩
    · exact Or.inr (by omega)

/-- With an empty queue and the invariant, the end key is unreachable. -/
theorem empty_q_unreachable (net : RouteNetwork) (startKey endKey : Key) (vis : List Key)
    (par : List (Key × Key)) (d : Key → ℕ)
    (inv : BfsInv net startKey endKey [] vis par d) :
    ¬ ReachableKey net startKey endKey := by
  have hall : ∀ m v, PathLen net startKey v m → v ∈ vis := by
    intro m
    induction m with
    | zero =>
      intro v h
      cases PathLen.zero_eq h
      exact inv.startMem
    | succ m ih =>
      intro v h
      obtain ⟨u, hu, huv⟩ := PathLen.snoc_inv h
      exact (inv.finClosed u (ih u hu) (List.not_mem_nil u) v huv).1
  rintro ⟨m, hm⟩
  exact List.not_mem_nil endKey (inv.endInQ (hall m endKey hm))

/-- Dequeuing a key with no tile preserves the invariant. -/
theorem inv_dequeue (net : RouteNetwork) (startKey endKey cur : Key) (rest vis : List Key)
    (par : List (Key × Key)) (d : Key → ℕ)
    (inv : BfsInv net startKey endKey (cur :: rest) vis par d)
    (hne : cur ≠ endKey) (hcur : mget net.tiles cur = none) :
    BfsInv net startKey endKey rest vis par d := by
  refine ⟨inv.qNodup.of_cons, inv.visNodup,
    fun v hv => inv.qSub v (List.mem_cons_of_mem _ hv), inv.startMem, inv.visAllowed,
    inv.dStart, inv.parDom, inv.parSpec, inv.distOk,
    inv.qSorted.of_cons, inv.qBand.of_cons, ?_, ?_, ?_, inv.dBound, inv.parLen⟩
  · intro u humem huq v hadj
    by_cases huc : u = cur
    · subst huc
      obtain ⟨t, ht, _⟩ := hadj
      rw [hcur] at ht
      cases ht
    · exact inv.finClosed u humem
        (fun hmem => (List.mem_cons.mp hmem).elim huc huq) v hadj
  · intro v hvmem hvq a ha
    by_cases hvc : v = cur
    · subst hvc
      exact (List.pairwise_cons.mp inv.qSorted).1 a ha
    · exact inv.finMin v hvmem
        (fun hmem => (List.mem_cons.mp hmem).elim hvc hvq) a (List.mem_cons_of_mem _ ha)
  · intro hmem
    rcases List.mem_cons.mp (inv.endInQ hmem) with he | hr
    · exact absurd he.symm hne
    · exact hr

/-- Transfer a pairwise relation along a member-wise implication. -/
theorem pairwise_congr_mem {α : Type} {l : List α} {R S : α → α → Prop}
    (h : ∀ a ∈ l, ∀ b ∈ l, R a b → S a b) (hp : l.Pairwise R) : l.Pairwise S := by
  induction hp with
  | nil => exact List.Pairwise.nil
  | @cons a l2 ha hp ih =>
    exact List.Pairwise.cons
      (fun b hb => h a (List.mem_cons_self _ _) b (List.mem_cons_of_mem _ hb) (ha b hb))
      (ih fun a' ha' b hb' hr =>
        h a' (List.mem_cons_of_mem _ ha') b (List.mem_cons_of_mem _ hb') hr)

/-- The ghost depth assignment after an expansion step: keys already
visited keep their depth, new ones get the given depth. -/
def bumpDepth (vis : List Key) (d : Key → ℕ) (m : ℕ) : Key → ℕ :=
  fun v => if v ∈ vis then d v else m

/-- Depth of an already-visited key is unchanged. -/
theorem bumpDepth_mem {vis : List Key} {d : Key → ℕ} {m : ℕ} {v : Key} (h : v ∈ vis) :
    bumpDepth vis d m v = d v := if_pos h

/-- Depth of a not-yet-visited key is the new depth. -/
theorem bumpDepth_not_mem {vis : List Key} {d : Key → ℕ} {m : ℕ} {v : Key} (h : v ∉ vis) :
    bumpDepth vis d m v = m := if_neg h

/-- Expanding the dequeued key's connections preserves the invariant,
with new nodes assigned depth one past the dequeued key's. -/
theorem inv_expand (net : RouteNetwork) (startKey endKey cur : Key) (rest vis : List Key)
    (par : List (Key × Key)) (d : Key → ℕ) (tile : RouteTile) (nw : List Key)
    (inv : BfsInv net startKey endKey (cur :: rest) vis par d)
    (hne : cur ≠ endKey) (hcur : mget net.tiles cur = some tile)
    (hnd : nw.Nodup) (hinw : ∀ c ∈ nw, c ∈ tile.connections ∧ c ∉ vis)
    (hcov : ∀ c ∈ tile.connections, c ∈ vis ++ nw) :
    BfsInv net startKey endKey (rest ++ nw) (vis ++ nw)
      (par ++ nw.map (fun c => (c, cur)))
      (bumpDepth vis d (d cur + 1)) := by
  have hcurvis : cur ∈ vis := inv.qSub cur (List.mem_cons_self _ _)
  have hrest : ∀ v ∈ rest, v ∈ vis := fun v hv => inv.qSub v (List.mem_cons_of_mem _ hv)
  have hdisj : ∀ c ∈ nw, c ∉ vis := fun c hc => (hinw c hc).2
  refine ⟨?_, ?_, ?_, ?_, ?_, ?_, ?_, ?_, ?_, ?_, ?_, ?_, ?_, ?_, ?_, ?_⟩
  · exact inv.qNodup.of_cons.append hnd (fun a ha hanw => hdisj a hanw (hrest a ha))
  · exact inv.visNodup.append hnd (fun a ha hanw => hdisj a hanw ha)
  · intro v hv
    rcases List.mem_append.mp hv with h | h
    · exact List.mem_append_left _ (hrest v h)
    · exact List.mem_append_right _ h
  · exact List.mem_append_left _ inv.startMem
  · intro v hv
    rcases List.mem_append.mp hv with h | h
    · exact inv.visAllowed v h
    · exact mem_allowed_of_conn net startKey hcur (hinw v h).1
  · rw [bumpDepth_mem inv.startMem]
    exact inv.dStart
  · intro v
    cases hv : mget par v with
    | some u =>
      rw [mget_append_of_some _ hv]
      have hmem := (inv.parDom v).mp (by rw [hv]; rfl)
      exact ⟨fun _ => ⟨List.mem_append_left _ hmem.1, hmem.2⟩, fun _ => rfl⟩
    | none =>
      rw [mget_append_of_none _ hv, mget_const_pairs]
      by_cases hvn : v ∈ nw
      · rw [if_pos hvn]
        refine ⟨fun _ => ⟨List.mem_append_right _ hvn, fun hvs => ?_⟩, fun _ => rfl⟩
        exact hdisj v hvn (hvs ▸ inv.startMem)
      · rw [if_neg hvn]
        refine ⟨fun h => by simp at h, fun hmm => ?_⟩
        exfalso
        obtain ⟨hmem, hnes⟩ := hmm
        rcases List.mem_append.mp hmem with h | h
        · have := (inv.parDom v).mpr ⟨h, hnes⟩
          rw [hv] at this
          simp at this
        · exact hvn h
  · intro v u
    cases hv : mget par v with
    | some u0 =>
      rw [mget_append_of_some _ hv]
      intro h
      injection h with hh
      subst hh
      obtain ⟨humem, hadj, hdeq⟩ := inv.parSpec v u0 hv
      have hvvis : v ∈ vis := ((inv.parDom v).mp (by rw [hv]; rfl)).1
      refine ⟨List.mem_append_left _ humem, hadj, ?_⟩
      rw [bumpDepth_mem hvvis, bumpDepth_mem humem, hdeq]
    | none =>
      rw [mget_append_of_none _ hv, mget_const_pairs]
      by_cases hvn : v ∈ nw
      · rw [if_pos hvn]
        intro h
        injection h with hh
        subst hh
        refine ⟨List.mem_append_left _ hcurvis, ⟨tile, hcur, (hinw v hvn).1⟩, ?_⟩
        rw [bumpDepth_not_mem (hdisj v hvn), bumpDepth_mem hcurvis]
      · rw [if_neg hvn]
        intro h
        cases h
  · intro v hv
    rcases List.mem_append.mp hv with h | h
    · rw [bumpDepth_mem h]
      exact inv.distOk v h
    · rw [bumpDepth_not_mem (hdisj v h)]
      exact (inv.distOk cur hcurvis).snoc ⟨tile, hcur, (hinw v h).1⟩
  · rw [List.pairwise_append]
    refine ⟨?_, ?_, ?_⟩
    · refine pairwise_congr_mem ?_ inv.qSorted.of_cons
      intro a ha b hb hr
      rw [bumpDepth_mem (hrest a ha), bumpDepth_mem (hrest b hb)]
      exact hr
    · refine pairwise_of_all ?_
      intro a ha b hb
      rw [bumpDepth_not_mem (hdisj a ha), bumpDepth_not_mem (hdisj b hb)]
    · intro a ha b hb
      rw [bumpDepth_mem (hrest a ha), bumpDepth_not_mem (hdisj b hb)]
      exact (List.pairwise_cons.mp inv.qBand).1 a ha
  · rw [List.pairwise_append]
    refine ⟨?_, ?_, ?_⟩
    · refine pairwise_congr_mem ?_ inv.qBand.of_cons
      intro a ha b hb hr
      rw [bumpDepth_mem (hrest a ha), bumpDepth_mem (hrest b hb)]
      exact hr
    · refine pairwise_of_all ?_
      intro a ha b hb
      rw [bumpDepth_not_mem (hdisj a ha), bumpDepth_not_mem (hdisj b hb)]
      omega
    · intro a ha b hb
      rw [bumpDepth_not_mem (hdisj b hb), bumpDepth_mem (hrest a ha)]
      have := (List.pairwise_cons.mp inv.qSorted).1 a ha
      omega
  · intro u humem hunq v hadj
    rcases List.mem_append.mp humem with huvis | hunw
    · by_cases huc : u = cur
      · subst huc
        obtain ⟨t', ht', hv'⟩ := hadj
        rw [hcur] at ht'
        injection ht' with hh
        subst hh
        refine ⟨hcov v hv', ?_⟩
        rw [bumpDepth_mem hcurvis]
        by_cases hvv : v ∈ vis
        · rw [bumpDepth_mem hvv]
          by_cases hvq : v ∈ u :: rest
          · rcases List.mem_cons.mp hvq with he | hr
            · subst he
              omega
            · exact (List.pairwise_cons.mp inv.qBand).1 v hr
          · have := inv.finMin v hvv hvq u (List.mem_cons_self _ _)
            omega
        · rw [bumpDepth_not_mem hvv]
      · have hunr : u ∉ cur :: rest := by
          intro hmem
          rcases List.mem_cons.mp hmem with he | hr
          · exact huc he
          · exact hunq (List.mem_append_left _ hr)
        obtain ⟨hvvis, hdvu⟩ := inv.finClosed u huvis hunr v hadj
        refine ⟨List.mem_append_left _ hvvis, ?_⟩
        rw [bumpDepth_mem hvvis, bumpDepth_mem huvis]
        exact hdvu
    · exact absurd (List.mem_append_right _ hunw) hunq
  · intro v hvmem hvnq a ha
    have hvnw : v ∉ nw := fun h => hvnq (List.mem_append_right _ h)
    have hvvis : v ∈ vis := by
      rcases List.mem_append.mp hvmem with h | h
      · exact h
      · exact absurd h hvnw
    have hvr : v ∉ rest := fun h => hvnq (List.mem_append_left _ h)
    rw [bumpDepth_mem hvvis]
    rcases List.mem_append.mp ha with har | han
    · rw [bumpDepth_mem (hrest a har)]
      by_cases hvc : v = cur
      · subst hvc
        exact (List.pairwise_cons.mp inv.qSorted).1 a har
      · exact inv.finMin v hvvis
          (fun h => (List.mem_cons.mp h).elim hvc hvr) a (List.mem_cons_of_mem _ har)
    · rw [bumpDepth_not_mem (hdisj a han)]
      by_cases hvc : v = cur
      · subst hvc
        omega
      · have := inv.finMin v hvvis
          (fun h => (List.mem_cons.mp h).elim hvc hvr) cur (List.mem_cons_self _ _)
        omega
  · intro hmem
    rcases List.mem_append.mp hmem with h | h
    · rcases List.mem_cons.mp (inv.endInQ h) with he | hr
      · exact absurd he.symm hne
      · exact List.mem_append_left _ hr
    · exact List.mem_append_right _ h
  · intro v hv
    rw [List.length_append]
    rcases List.mem_append.mp hv with h | h
    · rw [bumpDepth_mem h]
      have := inv.dBound v h
      omega
    · rw [bumpDepth_not_mem (hdisj v h)]
      have h1 := inv.dBound cur hcurvis
      have h2 : 0 < nw.length := List.length_pos.mpr (List.ne_nil_of_mem h)
      omega
  · rw [List.length_append, List.length_map, List.length_append]
    have := inv.parLen
    omega

/-- The termination measure of the BFS loop. -/
def bfsMeasure (net : RouteNetwork) (startKey : Key) (q vis : List Key) : ℕ :=
  ((RouteNetwork.allowedKeys net startKey).length - vis.length) *
    ((RouteNetwork.allowedKeys net startKey).length + 1) + q.length

/-- Equation: the loop on an empty queue returns null. -/
theorem bfsLoop_nil (net : RouteNetwork) (s e : Key) (fuel : ℕ) (vis : List Key)
    (par : List (Key × Key)) : RouteNetwork.bfsLoop net s e fuel [] vis par = none := by
  cases fuel <;> rfl

/-- Equation: one loop iteration with positive fuel. -/
theorem bfsLoop_succ (net : RouteNetwork) (s e : Key) (fuel : ℕ) (cur : Key)
    (rest vis : List Key) (par : List (Key × Key)) :
    RouteNetwork.bfsLoop net s e (fuel + 1) (cur :: rest) vis par =
      if cur = e then RouteNetwork.rebuild par s (par.length + 1) e []
      else
        match mget net.tiles cur with
        | none => RouteNetwork.bfsLoop net s e fuel rest vis par
        | some tile =>
          match RouteNetwork.expand cur tile.connections vis par rest with
          | (vis', par', q') => RouteNetwork.bfsLoop net s e fuel q' vis' par' := rfl

/-- Measure arithmetic for the expansion step. -/
theorem measure_step_le (A v n r fuel : ℕ) (hA : v + n ≤ A)
    (hms : (A - v) * (A + 1) + (r + 1) ≤ fuel + 1) :
    (A - (v + n)) * (A + 1) + (r + n) ≤ fuel := by
  have h1 : A - v = (A - (v + n)) + n := by omega
  rw [h1, Nat.add_mul] at hms
  have h2 : n ≤ n * (A + 1) := by
    calc n = n * 1 := (Nat.mul_one n).symm
    _ ≤ n * (A + 1) := Nat.mul_le_mul_left n (by omega)
  omega

/-- The BFS loop is correct under the invariant: a null result means
the end key is unreachable, and a returned path runs from the start
point to the end point with minimal hop count. -/
theorem bfsLoop_ok (net : RouteNetwork) (startKey endKey : Key) :
    ∀ (fuel : ℕ) (q vis : List Key) (par : List (Key × Key)) (d : Key → ℕ),
      BfsInv net startKey endKey q vis par d →
      bfsMeasure net startKey q vis ≤ fuel →
      (RouteNetwork.bfsLoop net startKey endKey fuel q vis par = none →
        ¬ ReachableKey net startKey endKey) ∧
      (∀ p, RouteNetwork.bfsLoop net startKey endKey fuel q vis par = some p →
        p.head? = some (parseKey startKey) ∧ p.getLast? = some (parseKey endKey) ∧
        PathLen net startKey endKey (p.length - 1) ∧
        ∀ m, PathLen net startKey endKey m → p.length - 1 ≤ m) := by
  intro fuel
  induction fuel with
  | zero =>
    intro q vis par d inv hms
    cases q with
    | nil =>
      rw [bfsLoop_nil]
      exact ⟨fun _ => empty_q_unreachable net startKey endKey vis par d inv,
        fun p hp => by cases hp⟩
    | cons cur rest =>
      exfalso
      unfold bfsMeasure at hms
      simp only [List.length_cons] at hms
      omega
  | succ fuel ih =>
    intro q vis par d inv hms
    cases q with
    | nil =>
      rw [bfsLoop_nil]
      exact ⟨fun _ => empty_q_unreachable net startKey endKey vis par d inv,
        fun p hp => by cases hp⟩
    | cons cur rest =>
      by_cases hce : cur = endKey
      · have hrw : RouteNetwork.bfsLoop net startKey endKey (fuel + 1) (cur :: rest) vis par
            = RouteNetwork.rebuild par startKey (par.length + 1) endKey [] := by
          rw [bfsLoop_succ, if_pos hce]
        have hendvis : endKey ∈ vis := hce ▸ inv.qSub cur (List.mem_cons_self _ _)
        have hfuelok : d endKey + 1 ≤ par.length + 1 := by
          have h1 := inv.dBound endKey hendvis
          have h2 := inv.parLen
          omega
        obtain ⟨L, hL, hlen, hhead, hlast⟩ :=
          rebuild_spec net startKey vis par d inv.parDom inv.parSpec inv.dStart
            (d endKey) endKey hendvis rfl (par.length + 1) [] hfuelok
        rw [List.append_nil] at hL
        have hmin := pop_min net startKey endKey rest vis par d (hce ▸ inv)
        constructor
        · intro hnone
          rw [hrw, hL] at hnone
          cases hnone
        · intro p hp
          rw [hrw, hL] at hp
          injection hp with hh
          subst hh
          refine ⟨hhead, hlast, ?_, ?_⟩
          · rw [hlen]
            simpa using inv.distOk endKey hendvis
          · intro m hm
            rcases hmin m endKey hm with ⟨_, hd⟩ | hd <;> (rw [hlen]; omega)
      · cases hcur : mget net.tiles cur with
        | none =>
          have hstep : RouteNetwork.bfsLoop net startKey endKey (fuel + 1) (cur :: rest) vis par
              = RouteNetwork.bfsLoop net startKey endKey fuel rest vis par := by
            rw [bfsLoop_succ, if_neg hce, hcur]
          rw [hstep]
          refine ih rest vis par d
            (inv_dequeue net startKey endKey cur rest vis par d inv hce hcur) ?_
          unfold bfsMeasure at hms ⊢
          simp only [List.length_cons] at hms
          omega
        | some tile =>
          obtain ⟨nw, heq, hnd2, hinw, hcov⟩ := expand_spec cur tile.connections vis par rest
          have hstep : RouteNetwork.bfsLoop net startKey endKey (fuel + 1) (cur :: rest) vis par
              = RouteNetwork.bfsLoop net startKey endKey fuel (rest ++ nw) (vis ++ nw)
                  (par ++ nw.map (fun c => (c, cur))) := by
            rw [bfsLoop_succ, if_neg hce, hcur]
            show (match RouteNetwork.expand cur tile.connections vis par rest with
              | (vis', par', q') =>
                RouteNetwork.bfsLoop net startKey endKey fuel q' vis' par') = _
            rw [heq]
          rw [hstep]
          have inv' := inv_expand net startKey endKey cur rest vis par d tile nw
            inv hce hcur hnd2 hinw hcov
          refine ih _ _ _ _ inv' ?_
          have hsub : vis.length + nw.length ≤ (RouteNetwork.allowedKeys net startKey).length := by
            have := nodup_subset_length inv'.visNodup inv'.visAllowed
            rwa [List.length_append] at this
          unfold bfsMeasure at hms ⊢
          simp only [List.length_cons] at hms
          rw [List.length_append, List.length_append]
          exact measure_step_le _ _ _ _ _ hsub hms

/-- The invariant holds in the initial BFS state. -/
theorem bfsInv_init (net : RouteNetwork) (s e : Key) :
    BfsInv net s e [s] [s] [] (fun _ => 0) := by
  refine ⟨List.nodup_singleton s, List.nodup_singleton s, fun v hv => hv,
    List.mem_singleton.mpr rfl, ?_, rfl, ?_, ?_, ?_,
    List.pairwise_singleton _ _, List.pairwise_singleton _ _, ?_, ?_, fun h => h, ?_, rfl⟩
  · intro v hv
    cases List.mem_singleton.mp hv
    exact start_mem_allowed net s
  · intro v
    constructor
    · intro hsome
      simp [mget] at hsome
    · rintro ⟨hv, hne⟩
      exact absurd (List.mem_singleton.mp hv) hne
  · intro v u h
    simp [mget] at h
  · intro v hv
    cases List.mem_singleton.mp hv
    exact PathLen.refl s
  · intro u hu hnq v hadj
    exact absurd hu hnq
  · intro v hv hnq a ha
    exact absurd hv hnq
  · intro v hv
    simp

/-- The fuel `findPath` supplies covers the initial measure. -/
theorem init_measure_le (A : ℕ) (hA : 1 ≤ A) :
    (A - 1) * (A + 1) + 1 ≤ (A + 1) * (A + 1) := by
  have h1 : A - 1 + 2 = A + 1 := by omega
  have h2 : (A + 1) * (A + 1) = (A - 1) * (A + 1) + 2 * (A + 1) := by
    rw [← Nat.add_mul, h1]
  omega

/-- C1: `findPath` returns null when either endpoint has no tile;
with both tiles present it returns null exactly when the end tile is
unreachable from the start tile through the connection graph, and any
returned path is an ordered point sequence from the start point to the
end point whose hop count (length minus one) is the graph-theoretic
shortest hop count. -/
theorem RouteNetwork.findPath_spec (net : RouteNetwork) (startX startY endX endY : ℤ) :
    ((net.hasTile startX startY = false ∨ net.hasTile endX endY = false) →
      net.findPath startX startY endX endY = none) ∧
    (net.hasTile startX startY = true → net.hasTile endX endY = true →
      ((net.findPath startX startY endX endY = none ↔
          ¬ ReachableKey net (RouteNetwork.getKey startX startY)
            (RouteNetwork.getKey endX endY)) ∧
        (∀ p, net.findPath startX startY endX endY = some p →
          p.head? = some ⟨startX, startY⟩ ∧ p.getLast? = some ⟨endX, endY⟩ ∧
          PathLen net (RouteNetwork.getKey startX startY)
            (RouteNetwork.getKey endX endY) (p.length - 1) ∧
          ∀ m, PathLen net (RouteNetwork.getKey startX startY)
            (RouteNetwork.getKey endX endY) m → p.length - 1 ≤ m))) := by
  constructor
  · rintro (h | h) <;> simp [RouteNetwork.findPath, h]
  · intro h1 h2
    have hcond : (!(net.hasTile startX startY) || !(net.hasTile endX endY)) = false := by
      rw [h1, h2]
      rfl
    have hres : net.findPath startX startY endX endY =
        RouteNetwork.bfsLoop net (RouteNetwork.getKey startX startY)
          (RouteNetwork.getKey endX endY)
          (((RouteNetwork.allowedKeys net (RouteNetwork.getKey startX startY)).length + 1) *
            ((RouteNetwork.allowedKeys net (RouteNetwork.getKey startX startY)).length + 1))
          [RouteNetwork.getKey startX startY] [RouteNetwork.getKey startX startY] [] := by
      simp only [RouteNetwork.findPath, hcond, Bool.false_eq_true, if_false]
    have hA : 1 ≤ (RouteNetwork.allowedKeys net (RouteNetwork.getKey startX startY)).length :=
      List.length_pos.mpr
        (List.ne_nil_of_mem (start_mem_allowed net (RouteNetwork.getKey startX startY)))
    have hms : bfsMeasure net (RouteNetwork.getKey startX startY)
        [RouteNetwork.getKey startX startY] [RouteNetwork.getKey startX startY] ≤
        ((RouteNetwork.allowedKeys net (RouteNetwork.getKey startX startY)).length + 1) *
          ((RouteNetwork.allowedKeys net (RouteNetwork.getKey startX startY)).length + 1) := by
      unfold bfsMeasure
      simp only [List.length_singleton]
      exact init_measure_le _ hA
    have hok := bfsLoop_ok net (RouteNetwork.getKey startX startY)
      (RouteNetwork.getKey endX endY) _ _ _ _ _
      (bfsInv_init net (RouteNetwork.getKey startX startY) (RouteNetwork.getKey endX endY)) hms
    rw [← hres] at hok
    constructor
    · constructor
      · exact hok.1
      · intro hunreach
        cases hfp : net.findPath startX startY endX endY with
        | none => rfl
        | some p =>
          exfalso
          exact hunreach ⟨p.length - 1, (hok.2 p hfp).2.2.1⟩
    · intro p hp
      exact hok.2 p hp

/-- A 3-in-a-row network: tiles at (0,0), (50,0) and (100,0). -/
def rowNet : RouteNetwork :=
  (((RouteNetwork.create 50).addTile 0 0 "#3498db" false).addTile 50 0
    "#3498db" false).addTile 100 0 "#3498db" false

/-- C1 witness: in the 3-in-a-row network the path from (0,0) to
(100,0) exists, runs from start to end and is two hops, the shortest
possible. -/
theorem RouteNetwork.findPath_spec_witness :
    rowNet.hasTile 0 0 = true ∧ rowNet.hasTile 100 0 = true ∧
    rowNet.findPath 0 0 100 0 = some [⟨0, 0⟩, ⟨50, 0⟩, ⟨100, 0⟩] ∧
    (∀ m, PathLen rowNet (RouteNetwork.getKey 0 0) (RouteNetwork.getKey 100 0) m →
      ([(⟨0, 0⟩ : Point), ⟨50, 0⟩, ⟨100, 0⟩].length - 1) ≤ m) := by
  have hfp : rowNet.findPath 0 0 100 0 = some [⟨0, 0⟩, ⟨50, 0⟩, ⟨100, 0⟩] := by decide
  refine ⟨by decide, by decide, hfp, ?_⟩
  intro m hm
  exact (((RouteNetwork.findPath_spec rowNet 0 0 100 0).2 (by decide) (by decide)).2
    [⟨0, 0⟩, ⟨50, 0⟩, ⟨100, 0⟩] hfp).2.2.2 m hm

/-- C10: a same-point query on an existing tile returns the one-point
zero-hop path, not null and not an empty sequence. -/
theorem RouteNetwork.findPath_self (net : RouteNetwork) (x y : ℤ)
    (h : net.hasTile x y = true) :
    net.findPath x y x y = some [⟨x, y⟩] := by
  have hcond : (!(net.hasTile x y) || !(net.hasTile x y)) = false := by
    rw [h]
    rfl
  have hres : net.findPath x y x y =
      RouteNetwork.bfsLoop net (RouteNetwork.getKey x y) (RouteNetwork.getKey x y)
        (((RouteNetwork.allowedKeys net (RouteNetwork.getKey x y)).length + 1) *
          ((RouteNetwork.allowedKeys net (RouteNetwork.getKey x y)).length + 1))
        [RouteNetwork.getKey x y] [RouteNetwork.getKey x y] [] := by
    simp only [RouteNetwork.findPath, hcond, Bool.false_eq_true, if_false]
  obtain ⟨f, hf⟩ : ∃ f, ((RouteNetwork.allowedKeys net (RouteNetwork.getKey x y)).length + 1) *
      ((RouteNetwork.allowedKeys net (RouteNetwork.getKey x y)).length + 1) = f + 1 := by
    have hpos : 0 < ((RouteNetwork.allowedKeys net (RouteNetwork.getKey x y)).length + 1) *
        ((RouteNetwork.allowedKeys net (RouteNetwork.getKey x y)).length + 1) :=
      Nat.mul_pos (by omega) (by omega)
    exact ⟨((RouteNetwork.allowedKeys net (RouteNetwork.getKey x y)).length + 1) *
      ((RouteNetwork.allowedKeys net (RouteNetwork.getKey x y)).length + 1) - 1, by omega⟩
  rw [hres, hf, bfsLoop_succ, if_pos rfl]
  unfold RouteNetwork.rebuild
  rw [if_pos rfl]
  rfl

/-- C10 witness: the same-point query at (50,0) in the 3-in-a-row
network returns exactly the one-point path. -/
theorem RouteNetwork.findPath_self_witness :
    rowNet.hasTile 50 0 = true ∧ rowNet.findPath 50 0 50 0 = some [⟨50, 0⟩] :=
  ⟨by decide, RouteNetwork.findPath_self rowNet 50 0 (by decide)⟩
